import Mathlib

/-!
# The keybinding and input-queue engine of `src/overlays/macros.cpp`

A shallow embedding of the engine: the key-name resolver `findKey`, the input
synthesizer `sendKeyInput`, the task queue (`queueTask`, `queueInput`,
`queueInputs`, `executeFirstQueuedTask`) and the window-procedure hook
`WndProcHook`, followed by theorems about them.

Conventions of the embedding.

* A `std::string` is a `List Char` (`Str`); the source only classifies and
  compares characters of the ASCII range, in the "C" locale.
* The process globals (`queuedTasks`, `Keybind::keybinds`, `inChat`) and the
  list of events handed to the OS call `SendInput` form the `World`.
* Everything the source obtains from outside the two files is a field of
  `Host`: the table `g_key_to_vk` of `keymap.h`, the OS calls `VkKeyScan`,
  `GetAsyncKeyState`, `MapVirtualKey`, and the meaning of caller-supplied
  `std::function` values.
* `Sys` pairs the world with a ghost `trace` that records, in order, every
  binding callback invoked by `WndProcHook` and every task popped for execution
  by `executeFirstQueuedTask`. Caller-supplied functions act on the `World`
  only, so they cannot alter the trace.
* `printf` output and the mutex are not modelled; calls are atomic steps.
* `int` values (`delay`, `amount`) are unbounded integers. The range check of
  `std::stoi` is modelled; a `delay` is decremented only while its task is at
  the front of the queue and still not due, so it stays in the `int` range
  unless it is queued as `INT_MIN`, which no call in the source does.
* A caller-supplied function is a total map on worlds: it returns normally.
-/

namespace InputHandler

/-- Contents of a `std::string`. -/
abbrev Str := List Char

/-- A callable `std::function<void()>` value.
`sendKey` is the lambda built in `queueInput` (lines 245-252), `trigger` is the
wrapper lambda stored by the `Keybind` constructor (lines 97-101), and `user`
is any other function supplied by a caller, identified by a number and given its
meaning by `Host.user`. -/
inductive Action where
  | sendKey (vkCode : Nat) (press : Bool)
  | trigger (function : Action)
  | user (id : Nat)
deriving DecidableEq, Repr

/-- The struct `InputHandler::Task` (lines 79-83). -/
structure Task where
  delay : Int
  function : Option Action
  recursive : Bool
deriving DecidableEq, Repr

/-- The data members of class `Keybind` (lines 111-115). -/
structure Keybind where
  keyCode : Nat
  isPressed : Bool
  function : Action
  modifiers : List Str
deriving DecidableEq, Repr

/-- The fields of a Win32 `INPUT` record that `sendKeyInput` sets to a value
other than zero: `mi.dwFlags`, `mi.mouseData` for a mouse record and `ki.wVk`,
`ki.wScan`, `ki.dwFlags` for a keyboard record. -/
inductive INPUT where
  | mouse (dwFlags : Nat) (mouseData : Nat)
  | keyboard (wVk : Nat) (wScan : Nat) (dwFlags : Nat)
deriving DecidableEq, Repr

/-- Program state: the globals `queuedTasks` (front of the queue first),
`Keybind::keybinds` (registration order), `inChat`, and the records passed to
`SendInput` so far, oldest first. -/
structure World where
  queuedTasks : List Task
  keybinds : List Keybind
  inChat : Bool
  sent : List INPUT
deriving DecidableEq, Repr

/-- What the engine takes from its surroundings. -/
structure Host where
  /-- The table `g_key_to_vk` (with `g_key_to_vk_size` entries) of `keymap.h`. -/
  g_key_to_vk : List (Str × Nat)
  /-- The OS call `VkKeyScan`, a `SHORT`; `-1` reports failure. -/
  VkKeyScan : Char → Int
  /-- The OS call `GetAsyncKeyState`, a `SHORT`. -/
  GetAsyncKeyState : Nat → Int
  /-- The OS call `MapVirtualKey`. -/
  MapVirtualKey : Nat → Nat → Nat
  /-- Effect of calling the caller-supplied function number `id`. -/
  user : Nat → World → World

/-- An entry of the ghost trace. -/
inductive Call where
  | keybind (index : Nat)
  | task (t : Task)
deriving DecidableEq, Repr

/-- World together with the ghost trace: `Call.keybind i` is appended when
`WndProcHook` calls `keybind.function()` on the binding at position `i`, and
`Call.task t` when `executeFirstQueuedTask` pops the copy `t` of the front task
(and calls its function, when it has one). -/
structure Sys where
  w : World
  trace : List Call
deriving DecidableEq, Repr

/-- C++ exceptions that the modelled code can raise. -/
inductive Exn where
  | out_of_range
  | bad_optional_access
deriving DecidableEq, Repr

/-! ## Win32 constants -/

def VK_LBUTTON : Nat := 0x01
def VK_RBUTTON : Nat := 0x02
def VK_MBUTTON : Nat := 0x04
def VK_PRIOR : Nat := 0x21
def VK_NEXT : Nat := 0x22
def VK_END : Nat := 0x23
def VK_HOME : Nat := 0x24
def VK_LEFT : Nat := 0x25
def VK_UP : Nat := 0x26
def VK_RIGHT : Nat := 0x27
def VK_DOWN : Nat := 0x28
def VK_INSERT : Nat := 0x2D
def VK_DELETE : Nat := 0x2E
def VK_APPS : Nat := 0x5D
def VK_LSHIFT : Nat := 0xA0
def VK_RSHIFT : Nat := 0xA1
def VK_LCONTROL : Nat := 0xA2
def VK_RCONTROL : Nat := 0xA3
def VK_LMENU : Nat := 0xA4
def VK_RMENU : Nat := 0xA5
def MOUSEEVENTF_LEFTDOWN : Nat := 0x0002
def MOUSEEVENTF_LEFTUP : Nat := 0x0004
def MOUSEEVENTF_RIGHTDOWN : Nat := 0x0008
def MOUSEEVENTF_RIGHTUP : Nat := 0x0010
def MOUSEEVENTF_MIDDLEDOWN : Nat := 0x0020
def MOUSEEVENTF_MIDDLEUP : Nat := 0x0040
def MOUSEEVENTF_WHEEL : Nat := 0x0800
def WHEEL_DELTA : Nat := 120
def KEYEVENTF_EXTENDEDKEY : Nat := 0x0001
def KEYEVENTF_KEYUP : Nat := 0x0002
def KEYEVENTF_SCANCODE : Nat := 0x0008
def MAPVK_VK_TO_VSC : Nat := 0
def WM_KEYDOWN : Nat := 0x0100
def WM_KEYUP : Nat := 0x0101
def WM_SYSKEYDOWN : Nat := 0x0104
def WM_SYSKEYUP : Nat := 0x0105
def INT_MAX : Nat := 2147483647

/-! ## Key name resolver -/

/-- The loop of `findKey` over `g_key_to_vk` (lines 138-143): the code of the
first entry whose name equals the lower-cased key, stored in a `WORD`. -/
def lookupKey : List (Str × Nat) → Str → Option Nat
  | [], _ => none
  | (keyName, vkCode) :: rest, lowerCaseKey =>
    if keyName = lowerCaseKey then some (vkCode % 65536) else lookupKey rest lowerCaseKey

/-- Win32 `LOBYTE` of a `SHORT`. -/
def LOBYTE (v : Int) : Nat := (v % 256).toNat

/-- `InputHandler::findKey` (lines 132-154). `lowerCaseKey[0]` of an empty
string is the terminating NUL character. -/
def findKey (h : Host) (keyToFind : Str) : Option Nat :=
  let lowerCaseKey := keyToFind.map Char.toLower
  match lookupKey h.g_key_to_vk lowerCaseKey with
  | some vkCode => some vkCode
  | none =>
    let vk := h.VkKeyScan (lowerCaseKey.headD (Char.ofNat 0))
    if vk = -1 then none else some (LOBYTE vk)

/-- `InputHandler::getPhysicalKeyState` (lines 122-130). -/
def getPhysicalKeyState (h : Host) (w : World) (vkCode : Nat) : Bool :=
  match w.keybinds.find? (fun keybind => decide (vkCode = keybind.keyCode)) with
  | some keybind => keybind.isPressed
  | none => decide ((h.GetAsyncKeyState vkCode % 65536).toNat &&& 0x8000 ≠ 0)

/-! ## Input synthesizer -/

/-- One call `SendInput(1, &input, sizeof(INPUT))`. -/
def SendInput (input : INPUT) (w : World) : World :=
  { w with sent := w.sent ++ [input] }

/-- The key codes of the `switch` at lines 197-218. -/
def isExtendedKey (vkCode : Nat) : Bool :=
  vkCode == VK_UP || vkCode == VK_DOWN || vkCode == VK_LEFT || vkCode == VK_RIGHT ||
  vkCode == VK_HOME || vkCode == VK_END || vkCode == VK_PRIOR || vkCode == VK_NEXT ||
  vkCode == VK_INSERT || vkCode == VK_DELETE || vkCode == VK_LCONTROL ||
  vkCode == VK_RCONTROL || vkCode == VK_LSHIFT || vkCode == VK_RSHIFT ||
  vkCode == VK_LMENU || vkCode == VK_RMENU || vkCode == VK_APPS

/-- `InputHandler::sendKeyInput` (lines 156-225). `mouseData` is a `DWORD`, so
`-WHEEL_DELTA` is stored as `2^32 - 120`; `wScan` is a `WORD`. -/
def sendKeyInput (h : Host) (vkCode : Nat) (pressDown : Bool) (w : World) : World :=
  if vkCode = VK_LBUTTON ∨ vkCode = VK_RBUTTON ∨ vkCode = VK_MBUTTON then
    let dwFlags :=
      if vkCode = VK_LBUTTON then
        (if pressDown then MOUSEEVENTF_LEFTDOWN else MOUSEEVENTF_LEFTUP)
      else if vkCode = VK_RBUTTON then
        (if pressDown then MOUSEEVENTF_RIGHTDOWN else MOUSEEVENTF_RIGHTUP)
      else
        (if pressDown then MOUSEEVENTF_MIDDLEDOWN else MOUSEEVENTF_MIDDLEUP)
    SendInput (.mouse dwFlags 0) w
  else if vkCode = 0x1001 ∨ vkCode = 0x1000 then
    let mouseData := if vkCode = 0x1001 then WHEEL_DELTA else 2 ^ 32 - WHEEL_DELTA
    SendInput (.mouse MOUSEEVENTF_WHEEL 0) (SendInput (.mouse MOUSEEVENTF_WHEEL mouseData) w)
  else
    let dwFlags := KEYEVENTF_SCANCODE
    let dwFlags := if isExtendedKey vkCode then dwFlags ||| KEYEVENTF_EXTENDEDKEY else dwFlags
    let dwFlags := if !pressDown then dwFlags ||| KEYEVENTF_KEYUP else dwFlags
    SendInput (.keyboard vkCode (h.MapVirtualKey vkCode MAPVK_VK_TO_VSC % 65536) dwFlags) w

/-! ## Task queue -/

/-- `InputHandler::queueTask` (lines 230-239): push at the back of the queue. -/
def queueTask (delay : Int) (function : Option Action) (recursive : Bool) (w : World) : World :=
  { w with queuedTasks := w.queuedTasks ++ [{ delay := delay, function := function, recursive := recursive }] }

/-- `InputHandler::queueInput` (lines 241-262). -/
def queueInput (vkCode : Nat) (state : Option Bool) (recursive : Bool) (w : World) : World :=
  let enqueue := fun (press recursiveInput : Bool) (w : World) =>
    queueTask 0 (some (.sendKey vkCode press)) recursiveInput w
  match state with
  | some value => enqueue value recursive w
  | none => enqueue false recursive (enqueue true false w)

/-- Calling a `std::function` value. -/
def Action.run (h : Host) : Action → World → World
  | .sendKey vkCode press, w => sendKeyInput h vkCode press w
  | .trigger function, w =>
    if w.queuedTasks.isEmpty then queueTask 0 (some function) false w else w
  | .user id, w => h.user id w

/-! ## The instruction grammar

`inputPattern` (line 264) is the ECMAScript regular expression
`(\w+?)(?:\s(down|up|\d+))?(R)?`, applied with `std::regex_match`, which
accepts only a match of the whole token. The functions below follow the order
in which a backtracking matcher explores it: the lazy `\w+?` takes one word
character and then the fewest more for which the rest of the pattern matches
the rest of the token; the optional groups are greedy, so each is tried before
it is skipped; the alternatives are tried from left to right. -/

/-- The class `\w` in the "C" locale: letters, digits and the underscore. -/
def isWordChar (c : Char) : Bool := c.isAlphanum || c == '_'

/-- The class `\s` in the "C" locale. -/
def isSpaceChar (c : Char) : Bool :=
  c == ' ' || c == '\t' || c == '\n' || c == '\x0b' || c == '\x0c' || c == '\r'

/-- The sub-matches of a successful `std::regex_match`: `matches[1]`,
`matches[2]` (`none` when the group took no part in the match) and
`matches[3].matched`. -/
structure SMatch where
  m1 : Str
  m2 : Option Str
  m3 : Bool
deriving DecidableEq, Repr

/-- The end of the pattern, `(R)?` followed by the end of the token. -/
def matchR (rest : Str) : Option Bool :=
  if rest = ['R'] then some true
  else if rest = [] then some false
  else none

/-- The part `(down|up|\d+)` followed by the end of the pattern. For `\d+` only the
longest run of digits is tried: after a shorter run the next character is a
digit, which neither `R` nor the end of the token matches. -/
def matchSecond (rest : Str) : Option (Str × Bool) :=
  let tryDown : Option (Str × Bool) :=
    if "down".toList.isPrefixOf rest then
      (matchR (rest.drop 4)).map (fun r => ("down".toList, r))
    else none
  let tryUp : Option (Str × Bool) :=
    if "up".toList.isPrefixOf rest then
      (matchR (rest.drop 2)).map (fun r => ("up".toList, r))
    else none
  let tryDigits : Option (Str × Bool) :=
    let digits := rest.takeWhile Char.isDigit
    if digits ≠ [] then
      (matchR (rest.dropWhile Char.isDigit)).map (fun r => (digits, r))
    else none
  (tryDown.orElse (fun _ => tryUp)).orElse (fun _ => tryDigits)

/-- The part `(?:\s(down|up|\d+))?(R)?` up to the end of the token. -/
def matchTail (rest : Str) : Option (Option Str × Bool) :=
  let withGroup : Option (Str × Bool) :=
    match rest with
    | c :: rest1 => if isSpaceChar c then matchSecond rest1 else none
    | [] => none
  match withGroup with
  | some (second, r) => some (some second, r)
  | none => (matchR rest).map (fun r => (none, r))

/-- The lazy `\w+?` after it has taken the characters `name`: try the rest of
the pattern, and only when that fails take one more word character. -/
def matchName : Str → Str → Option SMatch
  | name, [] => (matchTail []).map (fun t => { m1 := name, m2 := t.1, m3 := t.2 })
  | name, c :: rest =>
    match matchTail (c :: rest) with
    | some t => some { m1 := name, m2 := t.1, m3 := t.2 }
    | none => if isWordChar c then matchName (name ++ [c]) rest else none

/-- The call `std::regex_match(input, matches, inputPattern)`; `none` when the
token does not match. -/
def regex_match (input : Str) : Option SMatch :=
  match input with
  | c :: rest => if isWordChar c then matchName [c] rest else none
  | [] => none

/-- The call `std::stoi` on a string of decimal digits (the only strings the
guard at lines 284-285 lets through): the value, or `std::out_of_range` when it
does not fit an `int`. -/
def stoi (s : Str) : Except Exn Nat :=
  let value := s.foldl (fun acc c => acc * 10 + (c.toNat - 48)) 0
  if value ≤ INT_MAX then .ok value else .error .out_of_range

/-- Lines 277-288 of `queueInputs`: the pair `(state, amount)`. -/
def parseSecondArg (m2 : Option Str) : Except Exn (Option Bool × Nat) :=
  match m2 with
  | none => .ok (none, 1)
  | some secondArg =>
    if secondArg = "down".toList then .ok (some true, 1)
    else if secondArg = "up".toList then .ok (some false, 1)
    else if !secondArg.isEmpty && secondArg.all Char.isDigit then
      match stoi secondArg with
      | .ok amount => .ok (none, amount)
      | .error e => .error e
    else .ok (none, 1)

/-- How one iteration of the loop of `queueInputs` ends: `continue` (or the end
of the body), `return`, or an exception; each with the world at that point. -/
inductive Flow where
  | next (w : World)
  | ret (w : World)
  | thrown (e : Exn) (w : World)
deriving DecidableEq, Repr

/-- One pass of the body of the loop at lines 316-323. -/
def directionalPair (vkCode wheelInput amount : Nat) (w : World) : World :=
  let w := queueInput vkCode (some true) false w
  let w := queueInput vkCode (some false) true w
  let w := queueInput wheelInput (some false) false w
  if amount ≥ 3 then queueTask 0 none false w else w

/-- Lines 316-327: `floor(amount / 2)` passes of the loop, then one more tap of
the key when `amount` is odd. -/
def directionalInputs (vkCode wheelInput amount : Nat) (w : World) : World :=
  let w := (directionalPair vkCode wheelInput amount)^[amount / 2] w
  if amount % 2 = 1 then
    queueInput vkCode (some false) true (queueInput vkCode (some true) false w)
  else w

/-- The body of the loop of `queueInputs` for one token (lines 268-333). -/
def queueInputsStep (h : Host) (input : Str) (w : World) : Flow :=
  match regex_match input with
  | none => .ret w
  | some smatch =>
    let inputName := smatch.m1
    let isRecursive := smatch.m3
    match parseSecondArg smatch.m2 with
    | .error e => .thrown e w
    | .ok (state, amount) =>
      if inputName = "sleep".toList then
        .next ((queueTask 0 none isRecursive)^[amount] w)
      else
        match findKey h inputName with
        | none => .ret w
        | some vkCode =>
          if inputName = "wheelup".toList ∨ inputName = "wheeldown".toList then
            .next (queueTask 0 none false (queueInput vkCode (some true) false w))
          else if (inputName = "up".toList ∨ inputName = "down".toList) ∧ amount ≠ 1 ∧
              state = none then
            match findKey h ("wheel".toList ++ inputName) with
            | none => .thrown .bad_optional_access w
            | some wheelInput => .next (directionalInputs vkCode wheelInput amount w)
          else
            .next ((queueInput vkCode state isRecursive)^[amount] w)

/-- `InputHandler::queueInputs` (lines 265-338); `callback` is `none` for an
empty `std::function`. The result is the world on a normal return, or the
exception together with the world at the point where it was raised. -/
def queueInputs (h : Host) (inputs : List Str) (callback : Option Action) (w : World) :
    Except (Exn × World) World :=
  match inputs with
  | [] =>
    match callback with
    | some cb => .ok (queueTask 0 (some cb) true w)
    | none => .ok w
  | input :: rest =>
    match queueInputsStep h input w with
    | .ret w1 => .ok w1
    | .thrown e w1 => .error (e, w1)
    | .next w1 => queueInputs h rest callback w1

/-- The world that a call leaves behind, whether it returned or threw. -/
def worldOf (r : Except (Exn × World) World) : World :=
  match r with
  | .ok w => w
  | .error (_, w) => w

/-- Lines 356-358: call the function of the popped task when it has one. -/
def Task.invoke (h : Host) (t : Task) (w : World) : World :=
  match t.function with
  | some function => function.run h w
  | none => w

/-- `InputHandler::executeFirstQueuedTask` (lines 340-363). The first argument
bounds the number of iterations of the `while (true)` loop; `none` means the
bound was reached before the loop ended. -/
def executeFirstQueuedTask (h : Host) : Nat → Sys → Option Sys
  | 0, _ => none
  | fuel + 1, s =>
    match s.w.queuedTasks with
    | [] => some s
    | first :: rest =>
      let firstTaskCopy : Task := { first with delay := first.delay - 1 }
      if firstTaskCopy.delay < 0 then
        let w1 : World := { s.w with queuedTasks := rest }
        let s2 : Sys :=
          { w := firstTaskCopy.invoke h w1, trace := s.trace ++ [.task firstTaskCopy] }
        if !firstTaskCopy.recursive then some s2 else executeFirstQueuedTask h fuel s2
      else
        some { s with w := { s.w with queuedTasks := firstTaskCopy :: rest } }

/-- Successive calls of `executeFirstQueuedTask`, one per rendered frame
(`GTAVEnhanced::Render`), each with the same iteration bound. -/
def ticks (h : Host) (fuel : Nat) : Nat → Sys → Option Sys
  | 0, s => some s
  | n + 1, s =>
    match executeFirstQueuedTask h fuel s with
    | some s1 => ticks h fuel n s1
    | none => none

/-! ## Keybind registry and dispatcher -/

/-- The constructor `Keybind(int, std::function<void()>, std::vector<std::string>)`
(lines 92-103); `keyCode` is stored in a `DWORD`. -/
def Keybind.new (keyCode : Nat) (function : Action) (modifiers : List Str) (w : World) : World :=
  { w with keybinds := w.keybinds ++
      [{ keyCode := keyCode % 2 ^ 32, isPressed := false, function := .trigger function,
         modifiers := modifiers }] }

/-- The `std::all_of` over the modifiers of a binding (lines 446-451):
`key.value()` throws when the name does not resolve. -/
def modifiersAll (h : Host) (w : World) : List Str → Except Exn Bool
  | [] => .ok true
  | modifier :: rest =>
    match findKey h modifier with
    | none => .error .bad_optional_access
    | some key => if getPhysicalKeyState h w key then modifiersAll h w rest else .ok false

/-- The value of `modifiersPressed` at lines 444-452. -/
def modifiersPressed (h : Host) (w : World) (keybind : Keybind) : Except Exn Bool :=
  if keybind.modifiers.length ≠ 0 then modifiersAll h w keybind.modifiers else .ok true

/-- Result of the hook: `zero` is `return 0`, `callOriginal` is the value of
`CallWindowProc(oWndProc, ...)`. -/
inductive LResult where
  | zero
  | callOriginal
deriving DecidableEq, Repr

/-- The key-down loop of `WndProcHook` (lines 443-463) from the binding at
position `index` on; `none` when the loop ends without a `return`. -/
def keyDownLoop (h : Host) (s : Sys) (vkCode : Nat) : Nat → List Keybind → Except Exn (Option Sys)
  | _, [] => .ok none
  | index, keybind :: rest =>
    match modifiersPressed h s.w keybind with
    | .error e => .error e
    | .ok pressed =>
      if vkCode = keybind.keyCode ∧ keybind.isPressed = false ∧ pressed = true then
        let w1 : World :=
          { s.w with keybinds := s.w.keybinds.set index { keybind with isPressed := true } }
        if w1.inChat = false then
          .ok (some { w := keybind.function.run h w1, trace := s.trace ++ [.keybind index] })
        else
          .ok (some { s with w := w1 })
      else keyDownLoop h s vkCode (index + 1) rest

/-- The key-up loop of `WndProcHook` (lines 471-476). -/
def keyUpLoop (s : Sys) (vkCode : Nat) : Nat → List Keybind → Option Sys
  | _, [] => none
  | index, keybind :: rest =>
    if vkCode = keybind.keyCode then
      some { s with w :=
        { s.w with keybinds := s.w.keybinds.set index { keybind with isPressed := false } } }
    else keyUpLoop s vkCode (index + 1) rest

/-- `WndProcHook` (lines 437-481); `wParam` is cast to a `DWORD`. -/
def WndProcHook (h : Host) (uMsg wParam : Nat) (s : Sys) : Except Exn (Sys × LResult) :=
  if uMsg = WM_KEYDOWN ∨ uMsg = WM_SYSKEYDOWN then
    match keyDownLoop h s (wParam % 2 ^ 32) 0 s.w.keybinds with
    | .error e => .error e
    | .ok (some s1) => .ok (s1, .zero)
    | .ok none => .ok (s, .callOriginal)
  else if uMsg = WM_KEYUP ∨ uMsg = WM_SYSKEYUP then
    match keyUpLoop s (wParam % 2 ^ 32) 0 s.w.keybinds with
    | some s1 => .ok (s1, .zero)
    | none => .ok (s, .callOriginal)
  else .ok (s, .callOriginal)

/-! ## Definitions used to state the theorems -/

/-- The world with the tasks `ts` pushed at the back of the queue. -/
def enqueue (w : World) (ts : List Task) : World :=
  { w with queuedTasks := w.queuedTasks ++ ts }

/-- The world carried by a `Flow`. -/
def Flow.world : Flow → World
  | .next w => w
  | .ret w => w
  | .thrown _ w => w

/-- The token is one at which `queueInputs` gives up: it does not match
`inputPattern` (the `return` at line 271), or its name is not `sleep` and
`findKey` has no code for it (the `return` at line 299). -/
def tokenFails (h : Host) (input : Str) : Prop :=
  match regex_match input with
  | none => True
  | some smatch => smatch.m1 ≠ "sleep".toList ∧ findKey h smatch.m1 = none

/-- The loop body of `queueInputs` runs to its end (or to a `continue`) on this
token: the token matches the grammar, its name resolves and nothing throws. -/
def tokenContinues (h : Host) (input : Str) : Prop :=
  ∀ w, ∃ w1, queueInputsStep h input w = .next w1

/-- A world with an empty queue, no binding, `inChat` false and nothing sent. -/
def emptyWorld : World := { queuedTasks := [], keybinds := [], inChat := false, sent := [] }

/-- A sample host: a table with the names the source relies on, a `VkKeyScan`
that knows the letters, the digits and the minus sign, no key physically down,
and a caller function number 0 that pushes one pure delay on the queue (every
other number does nothing). -/
def sampleHost : Host where
  g_key_to_vk :=
    [("enter".toList, 0x0D), ("up".toList, VK_UP), ("down".toList, VK_DOWN),
     ("wheelup".toList, 0x1001), ("wheeldown".toList, 0x1000)]
  VkKeyScan := fun c =>
    if c.isAlphanum then (c.toUpper.toNat : Int) else if c = '-' then 0xBD else -1
  GetAsyncKeyState := fun _ => 0
  MapVirtualKey := fun vk _ => vk
  user := fun id w => if id = 0 then queueTask 0 none false w else w

/-- The copy of the front task that `executeFirstQueuedTask` pops: its delay
has been decremented (line 349). -/
def popped (t : Task) : Task := { t with delay := t.delay - 1 }

/-- The queue after its front task was peeked: the delay of the front task has
been decremented in place. -/
def peekFront : List Task → List Task
  | [] => []
  | t :: rest => popped t :: rest

/-- What identifies a queue entry apart from its running delay. -/
def Task.entry (t : Task) : Option Action × Bool := (t.function, t.recursive)

/-- No action of a task of `q` changes the queue, in whatever world it runs. -/
def QueueStable (h : Host) (q : List Task) : Prop :=
  ∀ t ∈ q, ∀ a, t.function = some a → ∀ w, (a.run h w).queuedTasks = w.queuedTasks

/-- The words of the scheduler contract: `run` is a run of entries at the front
of `q`, each of which is due when it is peeked (its delay less one is below
zero) and all of which except possibly the last are chained. -/
def DueChain (q run : List Task) : Prop :=
  (∃ rest, q = run ++ rest) ∧ (∀ t ∈ run, t.delay - 1 < 0) ∧
    (∀ t ∈ run.dropLast, t.recursive = true)

/-- The words of the scheduler contract: `run` is the longest such run. -/
def LongestDueChain (q run : List Task) : Prop :=
  DueChain q run ∧ ∀ run1, DueChain q run1 → run1.length ≤ run.length

/-- The run of entries that one call of `executeFirstQueuedTask` pops from the
queue `q` when no action changes the queue. -/
def dueRun : List Task → List Task
  | [] => []
  | t :: rest =>
    if t.delay - 1 < 0 then (if t.recursive then t :: dueRun rest else [t]) else []

/-- The press, release pairs that the default rule queues for `n` repeats. -/
def taps (vkCode n : Nat) : List Task :=
  (List.replicate n
    [⟨0, some (.sendKey vkCode true), false⟩, ⟨0, some (.sendKey vkCode false), false⟩]).flatten

/-- The action is one of the lambdas built by `queueInput`. -/
def Action.isSendKey : Action → Bool
  | .sendKey _ _ => true
  | _ => false

/-- Every task of `q` is a pure delay or carries a lambda built by `queueInput`. -/
def plainQueue (q : List Task) : Bool :=
  q.all (fun t => match t.function with
    | none => true
    | some a => a.isSendKey)

/-- A system whose queue holds one chained task, the caller function number 0
(for instance a completion callback passed to `queueInputs`), which on the
sample host pushes a task when it runs. -/
def chainedCallbackSys : Sys :=
  { w := { queuedTasks := [⟨0, some (.user 0), true⟩], keybinds := [], inChat := false,
           sent := [] },
    trace := [] }

/-- A system whose queue holds a press, a chained release, a press and a task
that is due one tick later. -/
def sampleQueueSys : Sys :=
  { w := { queuedTasks := [⟨0, some (.sendKey 0x4D true), false⟩,
                           ⟨0, some (.sendKey 0x4D false), true⟩,
                           ⟨0, some (.sendKey 0x0D true), false⟩,
                           ⟨1, none, false⟩],
           keybinds := [], inChat := false, sent := [] },
    trace := [] }

/-- The functions of the tasks `ts` called one after the other. -/
def invokeAll (h : Host) (ts : List Task) (w : World) : World :=
  ts.foldl (fun w t => t.invoke h w) w

/-- The system after a call of `WndProcHook`. An exception in `WndProcHook`
comes from a modifier lookup, which precedes every change of a binding and
every call of a binding function, so the system is then as it was. -/
def sysAfter (s : Sys) (r : Except Exn (Sys × LResult)) : Sys :=
  match r with
  | .ok (s1, _) => s1
  | .error _ => s

/-- A system with two idle bindings without modifiers for the key code 65,
registered one after the other. -/
def twoBindingsSys : Sys :=
  { w := { queuedTasks := [],
           keybinds := [⟨65, false, .trigger (.user 1), []⟩, ⟨65, false, .trigger (.user 2), []⟩],
           inChat := false, sent := [] },
    trace := [] }

/-- A system with one idle binding without modifiers, while `inChat` is set. -/
def chatSys : Sys :=
  { w := { queuedTasks := [], keybinds := [⟨65, false, .trigger (.user 1), []⟩],
           inChat := true, sent := [] },
    trace := [] }

/-- A system whose queue holds three tasks of delay 0: a press, a chained
release and a chained pure delay. -/
def zeroDelaySys : Sys :=
  { w := { queuedTasks := [⟨0, some (.sendKey 0x4D true), false⟩,
                           ⟨0, some (.sendKey 0x4D false), true⟩,
                           ⟨0, none, true⟩],
           keybinds := [], inChat := false, sent := [] },
    trace := [] }

/-- The number of entries of `q` that are not chained, plus one when the last
entry of `q` is chained. -/
def callsToDrain (q : List Task) : Nat :=
  (q.filter (fun t => !t.recursive)).length +
    (if q.getLast?.map (fun t => t.recursive) = some true then 1 else 0)

/-- The word of an explicit state in a token: `down` for a press, `up` for a
release. -/
def stateWord (b : Bool) : Str := if b then "down".toList else "up".toList

/-- One tap of the directional key as the fast path queues it: an unchained
press and a chained release. -/
def directionalTap (vkCode : Nat) : List Task :=
  [⟨0, some (.sendKey vkCode true), false⟩, ⟨0, some (.sendKey vkCode false), true⟩]

/-- The entry of one wheel notch as the fast path queues it. -/
def wheelNotch (wheelInput : Nat) : Task := ⟨0, some (.sendKey wheelInput false), false⟩

/-- The entries of the fast path for the count `n`: `n / 2` times a tap of the
key and a wheel notch (followed by a pure delay when `n ≥ 3`), then one more
tap when `n` is odd. -/
def directionalTasks (vkCode wheelInput n : Nat) : List Task :=
  (List.replicate (n / 2)
      (directionalTap vkCode ++ [wheelNotch wheelInput] ++
        (if n ≥ 3 then [⟨0, none, false⟩] else []))).flatten ++
    (if n % 2 = 1 then directionalTap vkCode else [])

/-- A host like the sample host whose table also has `shift` (code 0x10) and
`ctrl` (code 0x11), and on which the OS reports the key 0x10 as down and every
other key as up. -/
def shiftDownHost : Host where
  g_key_to_vk := ("shift".toList, 0x10) :: ("ctrl".toList, 0x11) :: sampleHost.g_key_to_vk
  VkKeyScan := sampleHost.VkKeyScan
  GetAsyncKeyState := fun vkCode => if vkCode = 0x10 then -32768 else 0
  MapVirtualKey := sampleHost.MapVirtualKey
  user := sampleHost.user

/-- The OS query `GetAsyncKeyState` reports the key as down (the test
`& 0x8000` of line 129). -/
def osDown (h : Host) (vkCode : Nat) : Prop :=
  (h.GetAsyncKeyState vkCode % 65536).toNat &&& 0x8000 ≠ 0

/-- The key `vkCode` counts as held: the first binding registered for that
code, when there is one, is held; when no binding is registered for it, the OS
reports it as down. -/
def Held (h : Host) (w : World) (vkCode : Nat) : Prop :=
  (∃ pre B post, w.keybinds = pre ++ B :: post ∧ (∀ B1 ∈ pre, B1.keyCode ≠ vkCode) ∧
      B.keyCode = vkCode ∧ B.isPressed = true) ∨
    ((∀ B ∈ w.keybinds, B.keyCode ≠ vkCode) ∧ osDown h vkCode)

/-- A system with an idle binding for the Shift key (code 0x10) and an idle
binding for the code 65 that requires `shift`. -/
def shiftBoundSys : Sys :=
  { w := { queuedTasks := [],
           keybinds := [⟨0x10, false, .trigger (.user 1), []⟩,
                        ⟨65, false, .trigger (.user 2), ["shift".toList]⟩],
           inChat := false, sent := [] },
    trace := [] }

/-- A system with a held binding for the Control key (code 0x11) and an idle
binding for the code 65 that requires `ctrl`. -/
def ctrlBoundSys : Sys :=
  { w := { queuedTasks := [],
           keybinds := [⟨0x11, true, .trigger (.user 1), []⟩,
                        ⟨65, false, .trigger (.user 2), ["ctrl".toList]⟩],
           inChat := false, sent := [] },
    trace := [] }

/-- A system with two idle bindings for the code 65, the first requiring
`ctrl`, the second requiring `shift`. -/
def sameKeySys : Sys :=
  { w := { queuedTasks := [],
           keybinds := [⟨65, false, .trigger (.user 1), ["ctrl".toList]⟩,
                        ⟨65, false, .trigger (.user 2), ["shift".toList]⟩],
           inChat := false, sent := [] },
    trace := [] }

/-- The system `sameKeySys` after its second binding has fired: that binding is
held and its function is queued. -/
def sameKeyHeldSys : Sys :=
  { w := { queuedTasks := [⟨0, some (.user 2), false⟩],
           keybinds := [⟨65, false, .trigger (.user 1), ["ctrl".toList]⟩,
                        ⟨65, true, .trigger (.user 2), ["shift".toList]⟩],
           inChat := false, sent := [] },
    trace := [.keybind 1] }

/-- The binding is the one a key-down for `vkCode` fires: its code is `vkCode`,
it is idle, and its modifier check completes and succeeds. -/
def fires (h : Host) (w : World) (vkCode : Nat) (keybind : Keybind) : Prop :=
  vkCode = keybind.keyCode ∧ keybind.isPressed = false ∧
    modifiersPressed h w keybind = .ok true

/-- The scan of a key-down for `vkCode` passes over the binding: its modifier
check completes, and it has another code, is held, or lacks a held modifier. -/
def passedOver (h : Host) (w : World) (vkCode : Nat) (keybind : Keybind) : Prop :=
  ∃ b, modifiersPressed h w keybind = .ok b ∧
    ¬ (vkCode = keybind.keyCode ∧ keybind.isPressed = false ∧ b = true)

/-- A system whose first binding requires a modifier name that does not
resolve on the sample host, and whose second binding is an idle binding for
the code 65 without modifiers. -/
def unresolvedModifierSys : Sys :=
  { w := { queuedTasks := [],
           keybinds := [⟨66, false, .trigger (.user 1), ["?".toList]⟩,
                        ⟨65, false, .trigger (.user 2), []⟩],
           inChat := false, sent := [] },
    trace := [] }

/-! ## Lemmas on the queue operations -/

theorem enqueue_nil (w : World) : enqueue w [] = w := by
  simp [enqueue]

theorem enqueue_enqueue (w : World) (a b : List Task) :
    enqueue (enqueue w a) b = enqueue w (a ++ b) := by
  simp [enqueue, List.append_assoc]

theorem queueTask_eq (d : Int) (f : Option Action) (r : Bool) (w : World) :
    queueTask d f r w = enqueue w [⟨d, f, r⟩] := rfl

theorem queueInput_some (vk : Nat) (b r : Bool) (w : World) :
    queueInput vk (some b) r w = enqueue w [⟨0, some (.sendKey vk b), r⟩] := rfl

theorem queueInput_none (vk : Nat) (r : Bool) (w : World) :
    queueInput vk none r w =
      enqueue w [⟨0, some (.sendKey vk true), false⟩, ⟨0, some (.sendKey vk false), r⟩] := by
  simp [queueInput, queueTask, enqueue]

theorem queueInput_eq (vk : Nat) (st : Option Bool) (r : Bool) :
    ∃ ts, ∀ w, queueInput vk st r w = enqueue w ts := by
  cases st with
  | none => exact ⟨_, queueInput_none vk r⟩
  | some b => exact ⟨_, queueInput_some vk b r⟩

theorem iterate_enqueue (f : World → World) (ts : List Task)
    (hf : ∀ w, f w = enqueue w ts) (n : Nat) (w : World) :
    f^[n] w = enqueue w (List.replicate n ts).flatten := by
  induction n generalizing w with
  | zero => simp [enqueue_nil]
  | succ n ih =>
    rw [Function.iterate_succ_apply, hf, ih, enqueue_enqueue, List.replicate_succ,
      List.flatten_cons]

theorem directionalPair_eq (vk wh amount : Nat) :
    ∃ ts, ∀ w, directionalPair vk wh amount w = enqueue w ts := by
  by_cases ha : amount ≥ 3
  · exact ⟨[⟨0, some (.sendKey vk true), false⟩, ⟨0, some (.sendKey vk false), true⟩,
      ⟨0, some (.sendKey wh false), false⟩, ⟨0, none, false⟩], fun w => by
        simp [directionalPair, ha, queueInput_some, queueTask_eq, enqueue_enqueue]⟩
  · exact ⟨[⟨0, some (.sendKey vk true), false⟩, ⟨0, some (.sendKey vk false), true⟩,
      ⟨0, some (.sendKey wh false), false⟩], fun w => by
        simp [directionalPair, ha, queueInput_some, enqueue_enqueue]⟩

theorem directionalInputs_eq (vk wh amount : Nat) :
    ∃ ts, ∀ w, directionalInputs vk wh amount w = enqueue w ts := by
  obtain ⟨ts, hts⟩ := directionalPair_eq vk wh amount
  by_cases ha : amount % 2 = 1
  · exact ⟨_, fun w => by
      simp only [directionalInputs, ha, if_true]
      rw [iterate_enqueue _ ts hts, queueInput_some, queueInput_some, enqueue_enqueue,
        enqueue_enqueue]⟩
  · exact ⟨_, fun w => by
      simp only [directionalInputs, ha, if_false]
      rw [iterate_enqueue _ ts hts]⟩

/-- One pass of the loop body of `queueInputs` only pushes tasks at the back of
the queue. -/
theorem queueInputsStep_world (h : Host) (input : Str) (w : World) :
    ∃ added, (queueInputsStep h input w).world = enqueue w added := by
  unfold queueInputsStep
  cases regex_match input with
  | none => exact ⟨[], (enqueue_nil w).symm⟩
  | some sm =>
    dsimp only
    cases parseSecondArg sm.m2 with
    | error e => exact ⟨[], (enqueue_nil w).symm⟩
    | ok p =>
      obtain ⟨state, amount⟩ := p
      dsimp only
      by_cases hs : sm.m1 = "sleep".toList
      · rw [if_pos hs]
        exact ⟨_, iterate_enqueue _ _ (fun w => queueTask_eq 0 none _ w) _ _⟩
      · rw [if_neg hs]
        cases findKey h sm.m1 with
        | none => exact ⟨[], (enqueue_nil w).symm⟩
        | some vkCode =>
          dsimp only
          by_cases hw : sm.m1 = "wheelup".toList ∨ sm.m1 = "wheeldown".toList
          · rw [if_pos hw]
            exact ⟨_, by
              rw [Flow.world.eq_def]
              dsimp only
              rw [queueInput_some, queueTask_eq, enqueue_enqueue]⟩
          · rw [if_neg hw]
            by_cases hd : (sm.m1 = "up".toList ∨ sm.m1 = "down".toList) ∧ amount ≠ 1 ∧
                state = none
            · rw [if_pos hd]
              cases findKey h ("wheel".toList ++ sm.m1) with
              | none => exact ⟨[], (enqueue_nil w).symm⟩
              | some wheelInput =>
                obtain ⟨ts, hts⟩ := directionalInputs_eq vkCode wheelInput amount
                exact ⟨ts, hts w⟩
            · rw [if_neg hd]
              obtain ⟨ts, hts⟩ := queueInput_eq vkCode state sm.m3
              exact ⟨_, iterate_enqueue _ ts hts _ _⟩

theorem queueInputs_cons (h : Host) (input : Str) (rest : List Str) (callback : Option Action)
    (w : World) :
    queueInputs h (input :: rest) callback w =
      match queueInputsStep h input w with
      | .ret w1 => .ok w1
      | .thrown e w1 => .error (e, w1)
      | .next w1 => queueInputs h rest callback w1 := rfl

/-- Every call of `queueInputs` only pushes tasks at the back of the queue:
the tasks that were queued before the call stay where they were. -/
theorem queueInputs_world (h : Host) (inputs : List Str) (callback : Option Action) (w : World) :
    ∃ added, worldOf (queueInputs h inputs callback w) = enqueue w added := by
  induction inputs generalizing w with
  | nil =>
    cases callback with
    | none => exact ⟨[], (enqueue_nil w).symm⟩
    | some cb => exact ⟨[⟨0, some cb, true⟩], rfl⟩
  | cons input rest ih =>
    obtain ⟨a, ha⟩ := queueInputsStep_world h input w
    unfold queueInputs
    cases hstep : queueInputsStep h input w with
    | ret w1 =>
      rw [hstep] at ha
      exact ⟨a, ha⟩
    | thrown e w1 =>
      rw [hstep] at ha
      exact ⟨a, ha⟩
    | next w1 =>
      rw [hstep] at ha
      obtain ⟨b, hb⟩ := ih w1
      refine ⟨a ++ b, ?_⟩
      dsimp only
      rw [hb]
      have hw1 : w1 = enqueue w a := ha
      rw [hw1, enqueue_enqueue]

/-- At a failing token the loop body leaves the world as it is and does not go
on to the next token. -/
theorem queueInputsStep_of_tokenFails (h : Host) (input : Str) (w : World)
    (hfail : tokenFails h input) :
    queueInputsStep h input w = .ret w ∨ ∃ e, queueInputsStep h input w = .thrown e w := by
  unfold tokenFails at hfail
  unfold queueInputsStep
  cases hrm : regex_match input with
  | none => exact Or.inl rfl
  | some sm =>
    rw [hrm] at hfail
    obtain ⟨hs, hk⟩ := hfail
    dsimp only
    cases parseSecondArg sm.m2 with
    | error e => exact Or.inr ⟨e, rfl⟩
    | ok p =>
      dsimp only
      rw [if_neg hs, hk]
      exact Or.inl rfl

/-- C10: names that are equal after lower-casing resolve identically, whatever
the static table and the layout translation of the host are. -/
theorem findKey_case_insensitive (h : Host) (s s' : Str)
    (hs : s.map Char.toLower = s'.map Char.toLower) : findKey h s = findKey h s' := by
  unfold findKey
  rw [hs]

/-- C10 at the names `Enter` and `ENTER` on the sample host. -/
theorem findKey_case_insensitive_witness :
    "Enter".toList.map Char.toLower = "ENTER".toList.map Char.toLower ∧
      findKey sampleHost "Enter".toList = findKey sampleHost "ENTER".toList :=
  ⟨by decide, findKey_case_insensitive sampleHost "Enter".toList "ENTER".toList (by decide)⟩

/-- C8: on the token `a 2147483648` the call `std::stoi` raises
`std::out_of_range`, and `queueInputs` lets it reach its caller: for every
host, callback and world the call ends with that exception. -/
theorem queueInputs_throws_out_of_range (h : Host) (callback : Option Action) (w : World) :
    queueInputs h ["a 2147483648".toList] callback w = .error (.out_of_range, w) := by
  rfl

/-- C9 as stated fails: with the tokens `enter`, `?` and a callback, the call
queues the press and the release of Enter, returns at the malformed token, and
queues no entry for the callback. -/
theorem queueInputs_callback_dropped :
    queueInputs sampleHost ["enter".toList, "?".toList] (some (.user 1)) emptyWorld =
      .ok { queuedTasks := [⟨0, some (.sendKey 0x0D true), false⟩,
                            ⟨0, some (.sendKey 0x0D false), false⟩],
            keybinds := [], inChat := false, sent := [] } := by
  rfl

/-- C9, amended: when the loop body runs to its end on every token (each
matches the grammar, resolves, and nothing throws), a call with a callback
returns the world of the same call without callback, with exactly one more
task at the back: delay 0, the callback as action, chained. -/
theorem queueInputs_callback_appended (h : Host) (inputs : List Str) (cb : Action) (w : World)
    (hall : ∀ input ∈ inputs, tokenContinues h input) :
    ∃ w1, queueInputs h inputs none w = .ok w1 ∧
      queueInputs h inputs (some cb) w =
        .ok { w1 with queuedTasks := w1.queuedTasks ++ [⟨0, some cb, true⟩] } := by
  induction inputs generalizing w with
  | nil => exact ⟨w, rfl, rfl⟩
  | cons input rest ih =>
    obtain ⟨w1, hw1⟩ := hall input (List.mem_cons_self _ _) w
    obtain ⟨w2, h2, h3⟩ := ih w1 (fun t ht => hall t (List.mem_cons_of_mem _ ht))
    refine ⟨w2, ?_, ?_⟩
    · rw [queueInputs_cons, hw1]
      exact h2
    · rw [queueInputs_cons, hw1]
      exact h3

/-- C9, amended, at the tokens `enter down`, `sleep 2` on the sample host. -/
theorem queueInputs_callback_appended_witness :
    (∀ input ∈ ["enter down".toList, "sleep 2".toList], tokenContinues sampleHost input) ∧
      ∃ w1, queueInputs sampleHost ["enter down".toList, "sleep 2".toList] none emptyWorld
          = .ok w1 ∧
        queueInputs sampleHost ["enter down".toList, "sleep 2".toList] (some (.user 1))
            emptyWorld =
          .ok { w1 with queuedTasks := w1.queuedTasks ++ [⟨0, some (.user 1), true⟩] } :=
  have hall : ∀ input ∈ ["enter down".toList, "sleep 2".toList],
      tokenContinues sampleHost input := by
    intro input hin
    simp only [List.mem_cons, List.mem_singleton, List.not_mem_nil, or_false] at hin
    rcases hin with rfl | rfl
    · exact fun w => ⟨_, rfl⟩
    · exact fun w => ⟨_, rfl⟩
  ⟨hall, queueInputs_callback_appended sampleHost _ (.user 1) emptyWorld hall⟩

/-- C6: when the token at position `i` fails (it does not match the grammar, or
its key name does not resolve), a call without callback leaves the same world
as the call on the tokens before position `i` alone, and that world is the
initial one with tasks pushed at the back of its queue. This holds for every
failing position, the first one in particular. -/
theorem queueInputs_stops_at_failing_token (h : Host) (ts : List Str) (i : Nat) (w : World)
    (hi : i < ts.length) (hfail : tokenFails h (ts.get ⟨i, hi⟩)) :
    worldOf (queueInputs h ts none w) = worldOf (queueInputs h (ts.take i) none w) ∧
      ∃ added, worldOf (queueInputs h ts none w) = enqueue w added := by
  refine ⟨?_, queueInputs_world h ts none w⟩
  induction ts generalizing i w with
  | nil => exact absurd hi (Nat.not_lt_zero _)
  | cons t rest ih =>
    cases i with
    | zero =>
      have hf : tokenFails h t := hfail
      rw [List.take_zero, queueInputs_cons]
      rcases queueInputsStep_of_tokenFails h t w hf with hr | ⟨e, hr⟩
      · rw [hr]
        rfl
      · rw [hr]
        rfl
    | succ j =>
      have hj : j < rest.length := Nat.lt_of_succ_lt_succ hi
      have hf : tokenFails h (rest.get ⟨j, hj⟩) := hfail
      rw [List.take_succ_cons, queueInputs_cons, queueInputs_cons]
      cases queueInputsStep h t w with
      | ret w1 => rfl
      | thrown e w1 => rfl
      | next w1 => exact ih j w1 hj hf

/-- C6 at the tokens `enter`, `?`, `sleep 2` on the sample host, position 1. -/
theorem queueInputs_stops_at_failing_token_witness :
    tokenFails sampleHost "?".toList ∧
      worldOf (queueInputs sampleHost ["enter".toList, "?".toList, "sleep 2".toList] none
          emptyWorld) =
        worldOf (queueInputs sampleHost
          (["enter".toList, "?".toList, "sleep 2".toList].take 1) none emptyWorld) ∧
      ∃ added, worldOf (queueInputs sampleHost
          ["enter".toList, "?".toList, "sleep 2".toList] none emptyWorld) =
        enqueue emptyWorld added :=
  ⟨trivial, queueInputs_stops_at_failing_token sampleHost
    ["enter".toList, "?".toList, "sleep 2".toList] 1 emptyWorld (by decide) trivial⟩

/-! ## Lemmas on the scheduler -/

theorem executeFirstQueuedTask_nil (h : Host) (fuel : Nat) (s : Sys)
    (hq : s.w.queuedTasks = []) : executeFirstQueuedTask h (fuel + 1) s = some s := by
  rw [executeFirstQueuedTask, hq]

theorem executeFirstQueuedTask_not_due (h : Host) (fuel : Nat) (s : Sys) (t : Task)
    (rest : List Task) (hq : s.w.queuedTasks = t :: rest) (hd : ¬ t.delay - 1 < 0) :
    executeFirstQueuedTask h (fuel + 1) s =
      some { s with w := { s.w with queuedTasks := popped t :: rest } } := by
  rw [executeFirstQueuedTask, hq]
  dsimp only
  rw [if_neg hd]
  rfl

theorem executeFirstQueuedTask_due_stop (h : Host) (fuel : Nat) (s : Sys) (t : Task)
    (rest : List Task) (hq : s.w.queuedTasks = t :: rest) (hd : t.delay - 1 < 0)
    (hr : t.recursive = false) :
    executeFirstQueuedTask h (fuel + 1) s =
      some { w := (popped t).invoke h { s.w with queuedTasks := rest },
             trace := s.trace ++ [.task (popped t)] } := by
  have h1 : (popped t).delay < 0 := hd
  have h2 : (!(popped t).recursive) = true := by simp [popped, hr]
  rw [executeFirstQueuedTask, hq]
  show (if (popped t).delay < 0 then
      (if (!(popped t).recursive) = true then some _ else executeFirstQueuedTask h fuel _)
    else _) = _
  rw [if_pos h1, if_pos h2]
  rfl

theorem executeFirstQueuedTask_due_chain (h : Host) (fuel : Nat) (s : Sys) (t : Task)
    (rest : List Task) (hq : s.w.queuedTasks = t :: rest) (hd : t.delay - 1 < 0)
    (hr : t.recursive = true) :
    executeFirstQueuedTask h (fuel + 1) s =
      executeFirstQueuedTask h fuel
        { w := (popped t).invoke h { s.w with queuedTasks := rest },
          trace := s.trace ++ [.task (popped t)] } := by
  have h1 : (popped t).delay < 0 := hd
  have h2 : ¬ (!(popped t).recursive) = true := by simp [popped, hr]
  rw [executeFirstQueuedTask, hq]
  show (if (popped t).delay < 0 then
      (if (!(popped t).recursive) = true then some _ else executeFirstQueuedTask h fuel _)
    else _) = _
  rw [if_pos h1, if_neg h2]
  rfl

theorem invoke_queue_of_stable (h : Host) (t : Task) (q : List Task) (w : World)
    (hs : QueueStable h q) (ht : t ∈ q) :
    ((popped t).invoke h w).queuedTasks = w.queuedTasks := by
  unfold Task.invoke
  cases hf : (popped t).function with
  | none => rfl
  | some a => exact hs t ht a hf w

theorem QueueStable_tail (h : Host) (t : Task) (rest : List Task)
    (hs : QueueStable h (t :: rest)) : QueueStable h rest :=
  fun t1 ht1 => hs t1 (List.mem_cons_of_mem _ ht1)

/-- The queue that one call leaves when no action changes the queue. -/
theorem executeFirstQueuedTask_stable (h : Host) (q : List Task) :
    ∀ (fuel : Nat) (s : Sys), s.w.queuedTasks = q → QueueStable h q → q.length < fuel →
      ∃ s1, executeFirstQueuedTask h fuel s = some s1 ∧
        s1.trace = s.trace ++ (dueRun q).map (fun t => Call.task (popped t)) ∧
        s1.w.queuedTasks =
          (if ((dueRun q).getLast?.map (fun t => t.recursive)) = some false
            then q.drop (dueRun q).length else peekFront (q.drop (dueRun q).length)) := by
  induction q with
  | nil =>
    intro fuel s hq _ hfuel
    obtain ⟨f, rfl⟩ : ∃ f, fuel = f + 1 := ⟨fuel - 1, by omega⟩
    refine ⟨s, executeFirstQueuedTask_nil h f s hq, ?_, ?_⟩
    · simp [dueRun]
    · simp [dueRun, peekFront, hq]
  | cons t rest ih =>
    intro fuel s hq hs hfuel
    obtain ⟨f, rfl⟩ : ∃ f, fuel = f + 1 := ⟨fuel - 1, by omega⟩
    by_cases hd : t.delay - 1 < 0
    · cases hr : t.recursive with
      | false =>
        refine ⟨_, executeFirstQueuedTask_due_stop h f s t rest hq hd hr, ?_, ?_⟩
        · simp [dueRun, hd, hr]
        · simp [dueRun, hd, hr, invoke_queue_of_stable h t (t :: rest) _ hs]
      | true =>
        rw [executeFirstQueuedTask_due_chain h f s t rest hq hd hr]
        have hq1 : ((popped t).invoke h { s.w with queuedTasks := rest }).queuedTasks = rest := by
          rw [invoke_queue_of_stable h t (t :: rest) _ hs (List.mem_cons_self _ _)]
        obtain ⟨s1, h1, h2, h3⟩ := ih f
          { w := (popped t).invoke h { s.w with queuedTasks := rest },
            trace := s.trace ++ [.task (popped t)] } hq1 (QueueStable_tail h t rest hs)
          (by simpa using hfuel)
        refine ⟨s1, h1, ?_, ?_⟩
        · rw [h2]
          simp [dueRun, hd, hr]
        · rw [h3]
          cases hdr : dueRun rest with
          | nil => simp [dueRun, hd, hr, hdr]
          | cons a l => simp [dueRun, hd, hr, hdr, List.getLast?_cons_cons]
    · refine ⟨_, executeFirstQueuedTask_not_due h f s t rest hq hd, ?_, ?_⟩
      · simp [dueRun, hd]
      · simp [dueRun, hd, peekFront]


theorem dueRun_append (q : List Task) : ∃ rest, q = dueRun q ++ rest := by
  induction q with
  | nil => exact ⟨[], rfl⟩
  | cons t rest ih =>
    obtain ⟨r, hr⟩ := ih
    unfold dueRun
    split
    · split
      · exact ⟨r, by rw [List.cons_append, ← hr]⟩
      · exact ⟨rest, rfl⟩
    · exact ⟨t :: rest, rfl⟩

theorem dueRun_due (q : List Task) : ∀ t ∈ dueRun q, t.delay - 1 < 0 := by
  induction q with
  | nil => intro t ht; simp [dueRun] at ht
  | cons a rest ih =>
    intro t ht
    unfold dueRun at ht
    split at ht
    · rename_i hd
      split at ht
      · rcases List.mem_cons.mp ht with rfl | hm
        · exact hd
        · exact ih t hm
      · rw [List.mem_singleton.mp ht]
        exact hd
    · simp at ht

theorem dueRun_chained (q : List Task) : ∀ t ∈ (dueRun q).dropLast, t.recursive = true := by
  induction q with
  | nil => intro t ht; simp [dueRun] at ht
  | cons a rest ih =>
    intro t ht
    unfold dueRun at ht
    split at ht
    · split at ht
      · rename_i hr
        cases hdr : dueRun rest with
        | nil => rw [hdr] at ht; simp at ht
        | cons b l =>
          rw [hdr, List.dropLast_cons₂] at ht
          rcases List.mem_cons.mp ht with rfl | hm
          · exact hr
          · exact ih t (by rw [hdr]; exact hm)
      · simp at ht
    · simp at ht

theorem dueRun_longest (q : List Task) : ∀ run1, DueChain q run1 → run1.length ≤ (dueRun q).length := by
  induction q with
  | nil =>
    rintro run1 ⟨⟨rest, hrest⟩, -, -⟩
    have : run1 = [] := (List.append_eq_nil.mp hrest.symm).1
    simp [this]
  | cons a rest ih =>
    rintro run1 ⟨⟨r, hr⟩, hdue, hch⟩
    cases run1 with
    | nil => simp
    | cons b l =>
      rw [List.cons_append] at hr
      obtain ⟨hab, hl⟩ := List.cons.inj hr
      subst hab
      have hd : a.delay - 1 < 0 := hdue a (List.mem_cons_self _ _)
      unfold dueRun
      rw [if_pos hd]
      cases hra : a.recursive with
      | true =>
        simp only [if_true, List.length_cons, Nat.add_le_add_iff_right]
        refine ih l ⟨⟨r, hl⟩, fun t ht => hdue t (List.mem_cons_of_mem _ ht), fun t ht => ?_⟩
        cases l with
        | nil => simp at ht
        | cons c l1 =>
          exact hch t (by rw [List.dropLast_cons₂]; exact List.mem_cons_of_mem _ ht)
      | false =>
        cases l with
        | nil => simp
        | cons c l1 =>
          have := hch a (by rw [List.dropLast_cons₂]; exact List.mem_cons_self _ _)
          rw [hra] at this
          exact absurd this (by decide)

theorem dueRun_isLongest (q : List Task) : LongestDueChain q (dueRun q) :=
  ⟨⟨dueRun_append q, dueRun_due q, dueRun_chained q⟩, dueRun_longest q⟩

theorem dueRun_one_unchained (q : List Task) :
    ((dueRun q).filter (fun t => !t.recursive)).length ≤ 1 := by
  induction q with
  | nil => simp [dueRun]
  | cons a rest ih =>
    unfold dueRun
    split
    · cases hr : a.recursive with
      | true => simpa [hr] using ih
      | false => simp [hr]
    · simp

theorem dueRun_zero_delay (q : List Task) (hz : ∀ t ∈ q, t.delay = 0) :
    dueRun q = q.take ((q.takeWhile (fun t => t.recursive)).length + 1) := by
  induction q with
  | nil => simp [dueRun]
  | cons a rest ih =>
    have ha : a.delay - 1 < 0 := by
      rw [hz a (List.mem_cons_self _ _)]
      decide
    unfold dueRun
    rw [if_pos ha]
    cases hr : a.recursive with
    | true =>
      simp only [if_true, List.takeWhile_cons, hr, List.length_cons, List.take_succ_cons]
      rw [ih (fun t ht => hz t (List.mem_cons_of_mem _ ht))]
    | false => simp [List.takeWhile_cons, hr]

theorem dueRun_eq_take (q : List Task) : dueRun q = q.take (dueRun q).length := by
  obtain ⟨r, hr⟩ := dueRun_append q
  have h2 : (dueRun q ++ r).take (dueRun q).length = dueRun q := by simp
  rw [← hr] at h2
  exact h2.symm

theorem peekFront_entry (l : List Task) : (peekFront l).map Task.entry = l.map Task.entry := by
  cases l with
  | nil => rfl
  | cons a l => rfl

theorem QueueStable_of_entry (h : Host) (q q1 : List Task) (k : Nat)
    (he : q1.map Task.entry = (q.drop k).map Task.entry) (hs : QueueStable h q) :
    QueueStable h q1 := by
  intro t ht a ha w
  have hm : t.entry ∈ (q.drop k).map Task.entry := by
    rw [← he]
    exact List.mem_map_of_mem _ ht
  obtain ⟨t0, ht0, he0⟩ := List.mem_map.mp hm
  have hf : t0.function = some a := by
    have : t0.function = t.function := congrArg Prod.fst he0
    rw [this, ha]
  exact hs t0 (List.mem_of_mem_drop ht0) a hf w

/-- One call on a queue that no action changes: the tasks popped are the first
`k` entries, and the queue left holds the other entries. -/
theorem executeFirstQueuedTask_fifo (h : Host) (fuel : Nat) (s : Sys)
    (hs : QueueStable h s.w.queuedTasks) (hfuel : s.w.queuedTasks.length < fuel) :
    ∃ s1 k, executeFirstQueuedTask h fuel s = some s1 ∧
      s1.trace = s.trace ++ ((s.w.queuedTasks.take k).map popped).map Call.task ∧
      s1.w.queuedTasks.map Task.entry = (s.w.queuedTasks.drop k).map Task.entry := by
  obtain ⟨s1, h1, h2, h3⟩ := executeFirstQueuedTask_stable h s.w.queuedTasks fuel s rfl hs hfuel
  refine ⟨s1, (dueRun s.w.queuedTasks).length, h1, ?_, ?_⟩
  · rw [h2, ← dueRun_eq_take, List.map_map]
    rfl
  · rw [h3]
    split
    · rfl
    · exact peekFront_entry _

theorem popped_entry (l : List Task) : (l.map popped).map Task.entry = l.map Task.entry := by
  rw [List.map_map]
  rfl


theorem sendKeyInput_queuedTasks (h : Host) (c : Nat) (b : Bool) (w : World) :
    (sendKeyInput h c b w).queuedTasks = w.queuedTasks := by
  unfold sendKeyInput
  split_ifs <;> rfl

theorem QueueStable_of_plainQueue (h : Host) (q : List Task) (hp : plainQueue q = true) :
    QueueStable h q := by
  intro t ht a ha w
  have := List.all_eq_true.mp hp t ht
  rw [ha] at this
  cases a with
  | sendKey c b => exact sendKeyInput_queuedTasks h c b w
  | trigger f => exact absurd this (by simp [Action.isSendKey])
  | user id => exact absurd this (by simp [Action.isSendKey])

/-- C2 as stated fails: on a queue that holds one chained task whose action
pushes a task, one call executes two tasks, the queued one and the one pushed
meanwhile, so what it executes is not a run of entries of the queue it found. -/
theorem executeFirstQueuedTask_runs_pushed_task :
    chainedCallbackSys.w.queuedTasks.length = 1 ∧
      executeFirstQueuedTask sampleHost 2 chainedCallbackSys =
        some { w := emptyWorld,
               trace := [.task ⟨-1, some (.user 0), true⟩, .task ⟨-1, none, false⟩] } := by
  exact ⟨rfl, rfl⟩

/-- C2, amended: when no action of a queued task changes the queue, one call
of `executeFirstQueuedTask` (with a loop bound above the queue length) returns,
and the tasks it pops and executes are exactly the longest run `run` at the
front of the queue in which every entry is due when peeked and all entries but
the last are chained. At most one entry of `run` is not chained, the queue left
is the rest of the queue (with the delay of its front decremented when that
entry was peeked and found not due), and when every delay is 0 `run` is the
entries up to and including the first one that is not chained. -/
theorem executeFirstQueuedTask_runs_longest_due_chain (h : Host) (fuel : Nat) (s : Sys)
    (hs : QueueStable h s.w.queuedTasks) (hfuel : s.w.queuedTasks.length < fuel) :
    ∃ s1 run, executeFirstQueuedTask h fuel s = some s1 ∧
      LongestDueChain s.w.queuedTasks run ∧
      s1.trace = s.trace ++ run.map (fun t => Call.task (popped t)) ∧
      s1.w.queuedTasks =
        (if (run.getLast?.map (fun t => t.recursive)) = some false
          then s.w.queuedTasks.drop run.length
          else peekFront (s.w.queuedTasks.drop run.length)) ∧
      (run.filter (fun t => !t.recursive)).length ≤ 1 ∧
      ((∀ t ∈ s.w.queuedTasks, t.delay = 0) →
        run = s.w.queuedTasks.take
          ((s.w.queuedTasks.takeWhile (fun t => t.recursive)).length + 1)) := by
  obtain ⟨s1, h1, h2, h3⟩ := executeFirstQueuedTask_stable h s.w.queuedTasks fuel s rfl hs hfuel
  exact ⟨s1, dueRun s.w.queuedTasks, h1, dueRun_isLongest _, h2, h3, dueRun_one_unchained _,
    dueRun_zero_delay _⟩

/-- C2, amended, on the sample queue. -/
theorem executeFirstQueuedTask_runs_longest_due_chain_witness :
    QueueStable sampleHost sampleQueueSys.w.queuedTasks ∧
      sampleQueueSys.w.queuedTasks.length < 5 ∧
      ∃ s1 run, executeFirstQueuedTask sampleHost 5 sampleQueueSys = some s1 ∧
        LongestDueChain sampleQueueSys.w.queuedTasks run ∧
        s1.trace = sampleQueueSys.trace ++ run.map (fun t => Call.task (popped t)) ∧
        s1.w.queuedTasks =
          (if (run.getLast?.map (fun t => t.recursive)) = some false
            then sampleQueueSys.w.queuedTasks.drop run.length
            else peekFront (sampleQueueSys.w.queuedTasks.drop run.length)) ∧
        (run.filter (fun t => !t.recursive)).length ≤ 1 ∧
        ((∀ t ∈ sampleQueueSys.w.queuedTasks, t.delay = 0) →
          run = sampleQueueSys.w.queuedTasks.take
            ((sampleQueueSys.w.queuedTasks.takeWhile (fun t => t.recursive)).length + 1)) :=
  ⟨QueueStable_of_plainQueue sampleHost _ (by decide), by decide,
    executeFirstQueuedTask_runs_longest_due_chain sampleHost 5 sampleQueueSys
      (QueueStable_of_plainQueue sampleHost _ (by decide)) (by decide)⟩

theorem ticks_succ (h : Host) (fuel n : Nat) (s : Sys) :
    ticks h fuel (n + 1) s =
      match executeFirstQueuedTask h fuel s with
      | some s1 => ticks h fuel n s1
      | none => none := rfl

/-- C7: on a queue whose actions enqueue nothing (pushing at the back is the
only operation the engine offers on the queue, so such an action leaves the
queue as it is), any number of successive calls of `executeFirstQueuedTask`
(each with a loop bound above the queue length) return, and the tasks they
execute, in order of execution, are the first `k` entries of the queue in queue
order, for some `k`; the queue left holds the other entries in the same order.
So no entry runs before an entry queued ahead of it, none is skipped and none
runs twice. Entries are compared by action and chained flag, their delay being
decremented while they wait. -/
theorem ticks_fifo (h : Host) (fuel n : Nat) (s : Sys)
    (hs : QueueStable h s.w.queuedTasks) (hfuel : s.w.queuedTasks.length < fuel) :
    ∃ (s1 : Sys) (executed : List Task) (k : Nat), ticks h fuel n s = some s1 ∧
      s1.trace = s.trace ++ executed.map Call.task ∧
      executed.map Task.entry = (s.w.queuedTasks.take k).map Task.entry ∧
      s1.w.queuedTasks.map Task.entry = (s.w.queuedTasks.drop k).map Task.entry := by
  induction n generalizing s with
  | zero => exact ⟨s, [], 0, rfl, by simp, by simp, by simp⟩
  | succ n ih =>
    obtain ⟨s1, k1, h1, h2, h3⟩ := executeFirstQueuedTask_fifo h fuel s hs hfuel
    have hlen : s1.w.queuedTasks.length ≤ s.w.queuedTasks.length := by
      have := congrArg List.length h3
      simp only [List.length_map, List.length_drop] at this
      omega
    obtain ⟨s2, ex2, k2, g1, g2, g3, g4⟩ := ih s1
      (QueueStable_of_entry h _ _ k1 h3 hs) (by omega)
    refine ⟨s2, (s.w.queuedTasks.take k1).map popped ++ ex2, k1 + k2, ?_, ?_, ?_, ?_⟩
    · rw [ticks_succ, h1]
      exact g1
    · rw [g2, h2, List.map_append, List.append_assoc]
    · rw [List.map_append, popped_entry, g3, List.take_add, List.map_append]
      congr 1
      rw [List.map_take, List.map_take, h3]
    · rw [g4, List.map_drop, h3, ← List.map_drop, List.drop_drop]

/-- C7 on the sample queue, three calls. -/
theorem ticks_fifo_witness :
    QueueStable sampleHost sampleQueueSys.w.queuedTasks ∧
      sampleQueueSys.w.queuedTasks.length < 5 ∧
      ∃ (s1 : Sys) (executed : List Task) (k : Nat), ticks sampleHost 5 3 sampleQueueSys = some s1 ∧
        s1.trace = sampleQueueSys.trace ++ executed.map Call.task ∧
        executed.map Task.entry = (sampleQueueSys.w.queuedTasks.take k).map Task.entry ∧
        s1.w.queuedTasks.map Task.entry =
          (sampleQueueSys.w.queuedTasks.drop k).map Task.entry :=
  ⟨QueueStable_of_plainQueue sampleHost _ (by decide), by decide,
    ticks_fifo sampleHost 5 3 sampleQueueSys
      (QueueStable_of_plainQueue sampleHost _ (by decide)) (by decide)⟩


/-! ## Lemmas on the instruction grammar -/

theorem isWordChar_not_space (c : Char) (hc : isWordChar c = true) : isSpaceChar c = false := by
  cases hs : isSpaceChar c with
  | false => rfl
  | true =>
    simp only [isSpaceChar, Bool.or_eq_true, beq_iff_eq] at hs
    rcases hs with ((((rfl | rfl) | rfl) | rfl) | rfl) | rfl <;> exact absurd hc (by decide)

theorem isDigit_ne_d (c : Char) (hc : c.isDigit = true) : c ≠ 'd' := by
  rintro rfl
  exact absurd hc (by decide)

theorem isDigit_ne_u (c : Char) (hc : c.isDigit = true) : c ≠ 'u' := by
  rintro rfl
  exact absurd hc (by decide)

theorem matchR_nil : matchR [] = some false := rfl

theorem matchR_cons_cons (a b : Char) (l : Str) : matchR (a :: b :: l) = none := by
  simp [matchR]

theorem matchSecond_digits (ds : Str) (hne : ds ≠ []) (hd : ∀ c ∈ ds, c.isDigit = true) :
    matchSecond ds = some (ds, false) := by
  cases ds with
  | nil => exact absurd rfl hne
  | cons d l =>
    have hd0 : d.isDigit = true := hd d (List.mem_cons_self _ _)
    have h1 : "down".toList.isPrefixOf (d :: l) = false := by
      have : ('d' == d) = false := by
        simpa using (isDigit_ne_d d hd0).symm
      show (('d' == d) && _) = false
      rw [this]
      rfl
    have h2 : "up".toList.isPrefixOf (d :: l) = false := by
      have : ('u' == d) = false := by
        simpa using (isDigit_ne_u d hd0).symm
      show (('u' == d) && _) = false
      rw [this]
      rfl
    have h3 : (d :: l).takeWhile Char.isDigit = d :: l :=
      List.takeWhile_eq_self_iff.mpr hd
    have h4 : (d :: l).dropWhile Char.isDigit = [] :=
      List.dropWhile_eq_nil_iff.mpr hd
    unfold matchSecond
    simp only [h1, h2, h3, h4, matchR_nil]
    simp

theorem matchTail_word (c : Char) (a : Char) (l : Str) (hc : isWordChar c = true) :
    matchTail (c :: a :: l) = none := by
  unfold matchTail
  simp only [isWordChar_not_space c hc, matchR_cons_cons]
  simp

theorem matchName_word (X : Str) (arg second : Str) (r : Bool)
    (hX : ∀ c ∈ X, isWordChar c = true) (harg : matchSecond arg = some (second, r)) :
    ∀ name, matchName name (X ++ ' ' :: arg) = some ⟨name ++ X, some second, r⟩ := by
  induction X with
  | nil =>
    intro name
    have ht : matchTail (' ' :: arg) = some (some second, r) := by
      unfold matchTail
      have : isSpaceChar ' ' = true := by decide
      simp only [this, harg, if_true]
    rw [List.nil_append, matchName, ht, List.append_nil]
  | cons c l ih =>
    intro name
    have hc : isWordChar c = true := hX c (List.mem_cons_self _ _)
    have ht : matchTail (c :: (l ++ ' ' :: arg)) = none := by
      cases l with
      | nil => exact matchTail_word c ' ' arg hc
      | cons a l1 => exact matchTail_word c a (l1 ++ ' ' :: arg) hc
    rw [List.cons_append, matchName, ht]
    simp only [hc, if_true]
    rw [ih (fun x hx => hX x (List.mem_cons_of_mem _ hx)) (name ++ [c])]
    simp

/-- A token made of a name of word characters, a space and a second part
matches the grammar, with that name as first group. -/
theorem regex_match_name_space (X : Str) (arg second : Str) (r : Bool) (hne : X ≠ [])
    (hX : ∀ c ∈ X, isWordChar c = true) (harg : matchSecond arg = some (second, r)) :
    regex_match (X ++ ' ' :: arg) = some ⟨X, some second, r⟩ := by
  cases X with
  | nil => exact absurd rfl hne
  | cons c l =>
    have hc : isWordChar c = true := hX c (List.mem_cons_self _ _)
    rw [List.cons_append, regex_match]
    simp only [hc, if_true]
    rw [matchName_word l arg second r (fun x hx => hX x (List.mem_cons_of_mem _ hx)) harg [c]]
    rfl

/-! ## Decimal numerals -/

theorem digitChar_value (k : Nat) (hk : k < 10) : (Nat.digitChar k).toNat - 48 = k := by
  interval_cases k <;> rfl

theorem digitChar_isDigit (k : Nat) (hk : k < 10) : (Nat.digitChar k).isDigit = true := by
  interval_cases k <;> rfl

theorem toDigitsCore_isDigit (fuel : Nat) :
    ∀ (n : Nat) (ds : Str), (∀ c ∈ ds, c.isDigit = true) →
      ∀ c ∈ Nat.toDigitsCore 10 fuel n ds, c.isDigit = true := by
  induction fuel with
  | zero => intro n ds hds; exact hds
  | succ f ih =>
    intro n ds hds
    have hcons : ∀ c ∈ Nat.digitChar (n % 10) :: ds, c.isDigit = true := by
      intro c hc
      rcases List.mem_cons.mp hc with rfl | hm
      · exact digitChar_isDigit _ (Nat.mod_lt _ (by decide))
      · exact hds c hm
    unfold Nat.toDigitsCore
    dsimp only
    split
    · exact hcons
    · exact ih _ _ hcons

theorem toDigitsCore_ne_nil (fuel : Nat) :
    ∀ (n : Nat) (ds : Str), ds ≠ [] → Nat.toDigitsCore 10 fuel n ds ≠ [] := by
  induction fuel with
  | zero => intro n ds hds; exact hds
  | succ f ih =>
    intro n ds _
    unfold Nat.toDigitsCore
    dsimp only
    split
    · exact List.cons_ne_nil _ _
    · exact ih _ _ (List.cons_ne_nil _ _)

theorem toDigitsCore_value (fuel : Nat) :
    ∀ (n : Nat) (ds : Str), n < fuel →
      (Nat.toDigitsCore 10 fuel n ds).foldl (fun acc c => acc * 10 + (c.toNat - 48)) 0 =
        ds.foldl (fun acc c => acc * 10 + (c.toNat - 48)) n := by
  induction fuel with
  | zero => intro n ds hn; exact absurd hn (Nat.not_lt_zero _)
  | succ f ih =>
    intro n ds hn
    unfold Nat.toDigitsCore
    dsimp only
    split
    · rename_i h0
      have hlt : n < 10 := by omega
      rw [List.foldl_cons, digitChar_value _ (Nat.mod_lt _ (by decide)), Nat.mod_eq_of_lt hlt]
      simp
    · rename_i h0
      have hlt : n / 10 < f := by omega
      rw [ih (n / 10) _ hlt, List.foldl_cons, digitChar_value _ (Nat.mod_lt _ (by decide)),
        Nat.div_add_mod' n 10]

theorem toDigits_isDigit (n : Nat) : ∀ c ∈ Nat.toDigits 10 n, c.isDigit = true :=
  toDigitsCore_isDigit (n + 1) n [] (fun c hc => absurd hc (List.not_mem_nil c))

theorem toDigits_ne_nil (n : Nat) : Nat.toDigits 10 n ≠ [] := by
  unfold Nat.toDigits Nat.toDigitsCore
  dsimp only
  split
  · exact List.cons_ne_nil _ _
  · exact toDigitsCore_ne_nil _ _ _ (List.cons_ne_nil _ _)

theorem stoi_toDigits (n : Nat) (hn : n ≤ INT_MAX) : stoi (Nat.toDigits 10 n) = .ok n := by
  unfold stoi Nat.toDigits
  rw [toDigitsCore_value (n + 1) n [] (Nat.lt_succ_self n)]
  simp only [List.foldl_nil]
  rw [if_pos hn]

/-- The numeral of a count that fits an `int` is read back as that count, with
no explicit state. -/
theorem parseSecondArg_toDigits (n : Nat) (hn : n ≤ INT_MAX) :
    parseSecondArg (some (Nat.toDigits 10 n)) = .ok (none, n) := by
  have hne := toDigits_ne_nil n
  have hd := toDigits_isDigit n
  obtain ⟨d, l, hdl⟩ : ∃ d l, Nat.toDigits 10 n = d :: l := by
    cases hx : Nat.toDigits 10 n with
    | nil => exact absurd hx hne
    | cons d l => exact ⟨d, l, rfl⟩
  have hd0 : d.isDigit = true := hd d (by rw [hdl]; exact List.mem_cons_self _ _)
  have h1 : Nat.toDigits 10 n ≠ "down".toList := by
    rw [hdl]
    intro hc
    exact isDigit_ne_d d hd0 (List.cons.inj hc).1
  have h2 : Nat.toDigits 10 n ≠ "up".toList := by
    rw [hdl]
    intro hc
    exact isDigit_ne_u d hd0 (List.cons.inj hc).1
  have h3 : (!(Nat.toDigits 10 n).isEmpty && (Nat.toDigits 10 n).all Char.isDigit) = true := by
    rw [Bool.and_eq_true]
    constructor
    · rw [hdl]
      rfl
    · exact List.all_eq_true.mpr hd
  unfold parseSecondArg
  dsimp only
  rw [if_neg h1, if_neg h2, if_pos h3, stoi_toDigits n hn]


/-! ## Tokens of the default rule and of `sleep` -/

theorem queueInputsStep_default (h : Host) (X arg second : Str) (r : Bool)
    (state : Option Bool) (amount c : Nat) (w : World) (hne : X ≠ [])
    (hX : ∀ ch ∈ X, isWordChar ch = true) (harg : matchSecond arg = some (second, r))
    (hparse : parseSecondArg (some second) = .ok (state, amount))
    (hs : X ≠ "sleep".toList) (hwu : X ≠ "wheelup".toList) (hwd : X ≠ "wheeldown".toList)
    (hdir : ¬ ((X = "up".toList ∨ X = "down".toList) ∧ amount ≠ 1 ∧ state = none))
    (hkey : findKey h X = some c) :
    queueInputsStep h (X ++ ' ' :: arg) w = .next ((queueInput c state r)^[amount] w) := by
  have hw : ¬ (X = "wheelup".toList ∨ X = "wheeldown".toList) := by
    rintro (hc | hc)
    · exact hwu hc
    · exact hwd hc
  unfold queueInputsStep
  rw [regex_match_name_space X arg second r hne hX harg]
  dsimp only
  rw [hparse]
  dsimp only
  rw [if_neg hs, hkey]
  dsimp only
  rw [if_neg hw, if_neg hdir]

theorem queueInputsStep_sleep (h : Host) (n : Nat) (w : World) (hn : n ≤ INT_MAX) :
    queueInputsStep h ("sleep ".toList ++ Nat.toDigits 10 n) w =
      .next (enqueue w (List.replicate n ⟨0, none, false⟩)) := by
  have harg := matchSecond_digits (Nat.toDigits 10 n) (toDigits_ne_nil n) (toDigits_isDigit n)
  have hrm := regex_match_name_space "sleep".toList (Nat.toDigits 10 n) _ false (by decide)
    (by decide) harg
  have htok : "sleep ".toList ++ Nat.toDigits 10 n = "sleep".toList ++ ' ' :: Nat.toDigits 10 n :=
    rfl
  unfold queueInputsStep
  rw [htok, hrm]
  dsimp only
  rw [parseSecondArg_toDigits n hn]
  dsimp only
  rw [if_pos rfl, iterate_enqueue _ _ (fun w => queueTask_eq 0 none false w),
    List.flatten_replicate_singleton]

theorem enqueue_of_empty (w : World) (ts : List Task) (hq : w.queuedTasks = []) :
    enqueue w ts = { w with queuedTasks := ts } := by
  unfold enqueue
  rw [hq, List.nil_append]

/-! ## Draining a queue of unchained due tasks -/

theorem sendKeyInput_withQueue (h : Host) (c : Nat) (b : Bool) (w : World) (q : List Task) :
    sendKeyInput h c b { w with queuedTasks := q } =
      { sendKeyInput h c b w with queuedTasks := q } := by
  unfold sendKeyInput
  split_ifs <;> rfl

theorem invoke_withQueue (h : Host) (t : Task) (w : World) (q : List Task)
    (hp : plainQueue [t] = true) :
    (popped t).invoke h { w with queuedTasks := q } = { t.invoke h w with queuedTasks := q } := by
  unfold Task.invoke
  have hf : (popped t).function = t.function := rfl
  rw [hf]
  cases hfun : t.function with
  | none => rfl
  | some a =>
    cases a with
    | sendKey c b => exact sendKeyInput_withQueue h c b w q
    | trigger f => simp [plainQueue, hfun, Action.isSendKey] at hp
    | user id => simp [plainQueue, hfun, Action.isSendKey] at hp

theorem ticks_unchained (h : Host) (fuel : Nat) (hfuel : 0 < fuel) :
    ∀ (k : Nat) (q : List Task) (w : World) (tr : List Call), k ≤ q.length →
      (∀ t ∈ q, t.delay - 1 < 0 ∧ t.recursive = false) → plainQueue q = true →
      ticks h fuel k { w := { w with queuedTasks := q }, trace := tr } =
        some { w := { invokeAll h (q.take k) w with queuedTasks := q.drop k },
               trace := tr ++ ((q.take k).map popped).map Call.task } := by
  obtain ⟨f, rfl⟩ : ∃ f, fuel = f + 1 := ⟨fuel - 1, by omega⟩
  intro k
  induction k with
  | zero =>
    intro q w tr _ _ _
    simp [ticks, invokeAll]
  | succ k ih =>
    intro q w tr hk hq hp
    cases q with
    | nil => exact absurd hk (by simp)
    | cons t rest =>
      obtain ⟨hd, hr⟩ := hq t (List.mem_cons_self _ _)
      have hpt : plainQueue [t] = true := by
        have := List.all_eq_true.mp hp t (List.mem_cons_self _ _)
        simpa [plainQueue] using this
      have hprest : plainQueue rest = true := by
        apply List.all_eq_true.mpr
        intro x hx
        exact List.all_eq_true.mp hp x (List.mem_cons_of_mem _ hx)
      rw [ticks_succ, executeFirstQueuedTask_due_stop h f _ t rest rfl hd hr]
      dsimp only
      rw [invoke_withQueue h t w rest hpt,
        ih rest (t.invoke h w) _ (by simpa using hk)
          (fun x hx => hq x (List.mem_cons_of_mem _ hx)) hprest]
      simp [invokeAll]


theorem invokeAll_replicate_none (h : Host) (k : Nat) (w : World) :
    invokeAll h (List.replicate k ⟨0, none, false⟩) w = w := by
  induction k with
  | zero => rfl
  | succ k ih =>
    rw [List.replicate_succ, invokeAll, List.foldl_cons]
    exact ih

theorem taps_succ (c n : Nat) :
    taps c (n + 1) =
      ⟨0, some (.sendKey c true), false⟩ :: ⟨0, some (.sendKey c false), false⟩ :: taps c n := by
  unfold taps
  rw [List.replicate_succ, List.flatten_cons]
  rfl

theorem taps_length (c n : Nat) : (taps c n).length = 2 * n := by
  induction n with
  | zero => rfl
  | succ n ih =>
    rw [taps_succ, List.length_cons, List.length_cons, ih]
    omega

theorem mem_taps (c n : Nat) (t : Task) (ht : t ∈ taps c n) :
    t = ⟨0, some (.sendKey c true), false⟩ ∨ t = ⟨0, some (.sendKey c false), false⟩ := by
  induction n with
  | zero => simp [taps] at ht
  | succ n ih =>
    rw [taps_succ] at ht
    rcases List.mem_cons.mp ht with rfl | ht1
    · exact Or.inl rfl
    · rcases List.mem_cons.mp ht1 with rfl | ht2
      · exact Or.inr rfl
      · exact ih ht2

theorem taps_unchained (c n : Nat) :
    ∀ t ∈ taps c n, t.delay - 1 < 0 ∧ t.recursive = false := by
  intro t ht
  have h0 : (0 : Int) - 1 < 0 := by decide
  rcases mem_taps c n t ht with rfl | rfl
  · exact ⟨h0, rfl⟩
  · exact ⟨h0, rfl⟩

theorem taps_plain (c n : Nat) : plainQueue (taps c n) = true := by
  apply List.all_eq_true.mpr
  intro t ht
  rcases mem_taps c n t ht with rfl | rfl <;> rfl

theorem invokeAll_taps (h : Host) (c n : Nat) (w : World) :
    invokeAll h (taps c n) w =
      (fun w => sendKeyInput h c false (sendKeyInput h c true w))^[n] w := by
  induction n generalizing w with
  | zero => rfl
  | succ n ih =>
    rw [taps_succ, invokeAll, List.foldl_cons, List.foldl_cons, Function.iterate_succ_apply]
    exact ih _

theorem iterate_tap_queuedTasks (h : Host) (c n : Nat) (w : World) :
    ((fun w => sendKeyInput h c false (sendKeyInput h c true w))^[n] w).queuedTasks =
      w.queuedTasks := by
  induction n generalizing w with
  | zero => rfl
  | succ n ih =>
    rw [Function.iterate_succ_apply, ih, sendKeyInput_queuedTasks, sendKeyInput_queuedTasks]

/-- C4: the token `sleep n`, for a count `n` that fits an `int`, called on an
empty queue, leaves a queue of exactly `n` tasks without action; after `k ≤ n`
calls of `executeFirstQueuedTask` (each with a loop bound of at least one
iteration) `n - k` of them are left, so the queue is empty after the `n`-th
call and not before, and the rest of the world, the records sent to the OS
included, is what it was before `queueInputs`. -/
theorem sleep_needs_n_ticks (h : Host) (n fuel : Nat) (w : World) (tr : List Call)
    (hn : n ≤ INT_MAX) (hq : w.queuedTasks = []) (hfuel : 0 < fuel) :
    queueInputs h ["sleep ".toList ++ Nat.toDigits 10 n] none w =
        .ok { w with queuedTasks := List.replicate n ⟨0, none, false⟩ } ∧
      ∀ k ≤ n,
        ticks h fuel k
            { w := { w with queuedTasks := List.replicate n ⟨0, none, false⟩ }, trace := tr } =
          some { w := { w with queuedTasks := List.replicate (n - k) ⟨0, none, false⟩ },
                 trace := tr ++ List.replicate k (.task ⟨-1, none, false⟩) } := by
  constructor
  · rw [queueInputs_cons, queueInputsStep_sleep h n w hn]
    dsimp only
    rw [enqueue_of_empty w _ hq]
    rfl
  · intro k hk
    rw [ticks_unchained h fuel hfuel k _ w tr (by simpa using hk)
      (fun t ht => by
        rw [List.eq_of_mem_replicate ht]
        exact ⟨by decide, rfl⟩)
      (by
        apply List.all_eq_true.mpr
        intro t ht
        rw [List.eq_of_mem_replicate ht])]
    rw [List.take_replicate, List.drop_replicate, invokeAll_replicate_none, Nat.min_eq_left hk,
      List.map_replicate, List.map_replicate]
    rfl

/-- C4 at `n = 3` on the sample host: the token is `sleep 3`. -/
theorem sleep_needs_n_ticks_witness :
    3 ≤ INT_MAX ∧ emptyWorld.queuedTasks = [] ∧ 0 < 1 ∧
      (queueInputs sampleHost ["sleep ".toList ++ Nat.toDigits 10 3] none emptyWorld =
          .ok { emptyWorld with queuedTasks := List.replicate 3 ⟨0, none, false⟩ } ∧
        ∀ k ≤ 3,
          ticks sampleHost 1 k
              { w := { emptyWorld with queuedTasks := List.replicate 3 ⟨0, none, false⟩ },
                trace := [] } =
            some { w := { emptyWorld with
                            queuedTasks := List.replicate (3 - k) ⟨0, none, false⟩ },
                   trace := [] ++ List.replicate k (.task ⟨-1, none, false⟩) }) :=
  ⟨by decide, rfl, by decide,
    sleep_needs_n_ticks sampleHost 3 1 emptyWorld [] (by decide) rfl (by decide)⟩

/-- C5: for a key name `K` made of word characters, other than `sleep`,
`wheelup`, `wheeldown`, `up` and `down`, that resolves to the code `c`, and a
count `n` that fits an `int`, the token `K n` called on an empty queue leaves
the queue of `n` press, release pairs for `c`, which has `2 * n` entries; `k`
calls of `executeFirstQueuedTask` execute its first `k` entries and leave the
others, and after `2 * n` calls the queue is empty and the world is the initial
one after `n` times `sendKeyInput(c, true)` followed by `sendKeyInput(c, false)`. -/
theorem repeat_emits_press_release_pairs (h : Host) (K : Str) (c n fuel : Nat) (w : World)
    (tr : List Call) (hne : K ≠ []) (hK : ∀ ch ∈ K, isWordChar ch = true)
    (hs : K ≠ "sleep".toList) (hwu : K ≠ "wheelup".toList) (hwd : K ≠ "wheeldown".toList)
    (hup : K ≠ "up".toList) (hdown : K ≠ "down".toList) (hkey : findKey h K = some c)
    (hn : n ≤ INT_MAX) (hq : w.queuedTasks = []) (hfuel : 0 < fuel) :
    queueInputs h [K ++ ' ' :: Nat.toDigits 10 n] none w =
        .ok { w with queuedTasks := taps c n } ∧
      (taps c n).length = 2 * n ∧
      (∀ k ≤ 2 * n, ∃ wk : World,
        ticks h fuel k { w := { w with queuedTasks := taps c n }, trace := tr } =
          some { w := { wk with queuedTasks := (taps c n).drop k },
                 trace := tr ++ (((taps c n).take k).map popped).map Call.task }) ∧
      ticks h fuel (2 * n) { w := { w with queuedTasks := taps c n }, trace := tr } =
        some { w := (fun w => sendKeyInput h c false (sendKeyInput h c true w))^[n] w,
               trace := tr ++ ((taps c n).map popped).map Call.task } ∧
      ((fun w => sendKeyInput h c false (sendKeyInput h c true w))^[n] w).queuedTasks = [] := by
  have hdir : ¬ ((K = "up".toList ∨ K = "down".toList) ∧ n ≠ 1 ∧ (none : Option Bool) = none) := by
    rintro ⟨hc | hc, -⟩
    · exact hup hc
    · exact hdown hc
  have hstep := queueInputsStep_default h K (Nat.toDigits 10 n) _ false none n c w hne hK
    (matchSecond_digits _ (toDigits_ne_nil n) (toDigits_isDigit n))
    (parseSecondArg_toDigits n hn) hs hwu hwd hdir hkey
  have hlen := taps_length c n
  have hqn := iterate_tap_queuedTasks h c n w
  refine ⟨?_, hlen, ?_, ?_, by rw [hqn, hq]⟩
  · rw [queueInputs_cons, hstep]
    dsimp only
    rw [iterate_enqueue _ _ (queueInput_none c false), enqueue_of_empty w _ hq]
    rfl
  · intro k hk
    exact ⟨_, ticks_unchained h fuel hfuel k _ w tr (by rw [hlen]; exact hk)
      (taps_unchained c n) (taps_plain c n)⟩
  · rw [ticks_unchained h fuel hfuel (2 * n) _ w tr (by rw [hlen]) (taps_unchained c n)
      (taps_plain c n)]
    rw [List.take_of_length_le (by rw [hlen]), List.drop_of_length_le (by rw [hlen]),
      invokeAll_taps]
    congr 2
    cases hx : (fun w => sendKeyInput h c false (sendKeyInput h c true w))^[n] w with
    | mk q kb ic snt =>
      rw [hx] at hqn
      rw [hq] at hqn
      simp only at hqn
      rw [hqn]

/-- C5 at `K = A`, `n = 3` on the sample host: the token is `A 3`. -/
theorem repeat_emits_press_release_pairs_witness :
    "A".toList ≠ [] ∧ (∀ ch ∈ "A".toList, isWordChar ch = true) ∧
      findKey sampleHost "A".toList = some 0x41 ∧ 3 ≤ INT_MAX ∧
      (queueInputs sampleHost ["A".toList ++ ' ' :: Nat.toDigits 10 3] none emptyWorld =
          .ok { emptyWorld with queuedTasks := taps 0x41 3 } ∧
        (taps 0x41 3).length = 2 * 3 ∧
        (∀ k ≤ 2 * 3, ∃ wk : World,
          ticks sampleHost 1 k { w := { emptyWorld with queuedTasks := taps 0x41 3 }, trace := [] } =
            some { w := { wk with queuedTasks := (taps 0x41 3).drop k },
                   trace := [] ++ (((taps 0x41 3).take k).map popped).map Call.task }) ∧
        ticks sampleHost 1 (2 * 3)
            { w := { emptyWorld with queuedTasks := taps 0x41 3 }, trace := [] } =
          some { w := (fun w => sendKeyInput sampleHost 0x41 false
                          (sendKeyInput sampleHost 0x41 true w))^[3] emptyWorld,
                 trace := [] ++ ((taps 0x41 3).map popped).map Call.task } ∧
        ((fun w => sendKeyInput sampleHost 0x41 false
            (sendKeyInput sampleHost 0x41 true w))^[3] emptyWorld).queuedTasks = []) :=
  ⟨by decide, by decide, rfl, by decide,
    repeat_emits_press_release_pairs sampleHost "A".toList 0x41 3 1 emptyWorld []
      (by decide) (by decide) (by decide) (by decide) (by decide) (by decide) (by decide) rfl
      (by decide) rfl (by decide)⟩


/-- C3 as stated fails for names that resolve but are not ordinary key names.
On the sample host `wheelup` resolves to the pseudo-code 0x1001, yet the tokens
`wheelup down`, `wheelup up` queue a wheel press and a pure delay each (the
state is ignored), so two calls of `executeFirstQueuedTask` run one
`sendKeyInput(0x1001, true)` and one delay, and two tasks are still queued.
The name `-` resolves through `VkKeyScan`, yet `- down` does not match the
grammar and nothing is queued. -/
theorem down_up_not_press_release_for_wheelup :
    findKey sampleHost "wheelup".toList = some 0x1001 ∧
      queueInputs sampleHost ["wheelup down".toList, "wheelup up".toList] none emptyWorld =
        .ok { emptyWorld with queuedTasks :=
                [⟨0, some (.sendKey 0x1001 true), false⟩, ⟨0, none, false⟩,
                 ⟨0, some (.sendKey 0x1001 true), false⟩, ⟨0, none, false⟩] } ∧
      ticks sampleHost 1 2
          { w := { emptyWorld with queuedTasks :=
                    [⟨0, some (.sendKey 0x1001 true), false⟩, ⟨0, none, false⟩,
                     ⟨0, some (.sendKey 0x1001 true), false⟩, ⟨0, none, false⟩] },
            trace := [] } =
        some { w := { queuedTasks := [⟨0, some (.sendKey 0x1001 true), false⟩, ⟨0, none, false⟩],
                      keybinds := [], inChat := false,
                      sent := [.mouse MOUSEEVENTF_WHEEL WHEEL_DELTA, .mouse MOUSEEVENTF_WHEEL 0] },
               trace := [.task ⟨-1, some (.sendKey 0x1001 true), false⟩,
                         .task ⟨-1, none, false⟩] } ∧
      findKey sampleHost "-".toList = some 0xBD ∧
      queueInputs sampleHost ["- down".toList, "- up".toList] none emptyWorld = .ok emptyWorld := by
  exact ⟨rfl, rfl, rfl, rfl, rfl⟩

/-- C3, amended: for a key name `X` made of word characters, other than
`sleep`, `wheelup` and `wheeldown`, that resolves to the code `c`, the tokens
`X down`, `X up` called on an empty queue leave a queue of two tasks; the first
call of `executeFirstQueuedTask` runs `sendKeyInput(c, true)` and leaves the
second task, the second call runs `sendKeyInput(c, false)`, and the queue is
empty afterwards. -/
theorem down_up_emits_press_then_release (h : Host) (X : Str) (c fuel : Nat) (w : World)
    (tr : List Call) (hne : X ≠ []) (hX : ∀ ch ∈ X, isWordChar ch = true)
    (hs : X ≠ "sleep".toList) (hwu : X ≠ "wheelup".toList) (hwd : X ≠ "wheeldown".toList)
    (hkey : findKey h X = some c) (hq : w.queuedTasks = []) (hfuel : 0 < fuel) :
    queueInputs h [X ++ " down".toList, X ++ " up".toList] none w =
        .ok { w with queuedTasks :=
                [⟨0, some (.sendKey c true), false⟩, ⟨0, some (.sendKey c false), false⟩] } ∧
      ticks h fuel 1
          { w := { w with queuedTasks :=
                    [⟨0, some (.sendKey c true), false⟩, ⟨0, some (.sendKey c false), false⟩] },
            trace := tr } =
        some { w := { sendKeyInput h c true w with
                        queuedTasks := [⟨0, some (.sendKey c false), false⟩] },
               trace := tr ++ [.task ⟨-1, some (.sendKey c true), false⟩] } ∧
      ticks h fuel 2
          { w := { w with queuedTasks :=
                    [⟨0, some (.sendKey c true), false⟩, ⟨0, some (.sendKey c false), false⟩] },
            trace := tr } =
        some { w := sendKeyInput h c false (sendKeyInput h c true w),
               trace := tr ++ [.task ⟨-1, some (.sendKey c true), false⟩,
                               .task ⟨-1, some (.sendKey c false), false⟩] } ∧
      (sendKeyInput h c false (sendKeyInput h c true w)).queuedTasks = [] := by
  have hdirT : ¬ ((X = "up".toList ∨ X = "down".toList) ∧ 1 ≠ 1 ∧ (some true) = none) := by
    rintro ⟨-, hc, -⟩
    exact hc rfl
  have hdirF : ¬ ((X = "up".toList ∨ X = "down".toList) ∧ 1 ≠ 1 ∧ (some false) = none) := by
    rintro ⟨-, hc, -⟩
    exact hc rfl
  have hdown : ∀ w, queueInputsStep h (X ++ " down".toList) w =
      .next ((queueInput c (some true) false)^[1] w) := fun w =>
    queueInputsStep_default h X "down".toList "down".toList false (some true) 1 c w hne hX rfl
      rfl hs hwu hwd hdirT hkey
  have hup : ∀ w, queueInputsStep h (X ++ " up".toList) w =
      .next ((queueInput c (some false) false)^[1] w) := fun w =>
    queueInputsStep_default h X "up".toList "up".toList false (some false) 1 c w hne hX rfl
      rfl hs hwu hwd hdirF hkey
  have hqf : (sendKeyInput h c false (sendKeyInput h c true w)).queuedTasks = [] := by
    rw [sendKeyInput_queuedTasks, sendKeyInput_queuedTasks, hq]
  have hplain : plainQueue
      [⟨0, some (.sendKey c true), false⟩, ⟨0, some (.sendKey c false), false⟩] = true := rfl
  have hdue : ∀ t ∈ ([⟨0, some (.sendKey c true), false⟩, ⟨0, some (.sendKey c false), false⟩] :
      List Task), t.delay - 1 < 0 ∧ t.recursive = false := by
    have h0 : (0 : Int) - 1 < 0 := by decide
    intro t ht
    simp only [List.mem_cons, List.mem_singleton, List.not_mem_nil, or_false] at ht
    rcases ht with rfl | rfl
    · exact ⟨h0, rfl⟩
    · exact ⟨h0, rfl⟩
  refine ⟨?_, ?_, ?_, hqf⟩
  · rw [queueInputs_cons, hdown]
    dsimp only
    rw [queueInputs_cons, hup]
    dsimp only
    rw [Function.iterate_one, Function.iterate_one, queueInput_some, queueInput_some,
      enqueue_enqueue, enqueue_of_empty w _ hq]
    rfl
  · rw [ticks_unchained h fuel hfuel 1 _ w tr (by simp) hdue hplain]
    rfl
  · rw [ticks_unchained h fuel hfuel 2 _ w tr (by simp) hdue hplain]
    have hw2 : invokeAll h (List.take 2
        [⟨0, some (.sendKey c true), false⟩, ⟨0, some (.sendKey c false), false⟩]) w =
        sendKeyInput h c false (sendKeyInput h c true w) := rfl
    rw [hw2]
    congr 2
    cases hx : sendKeyInput h c false (sendKeyInput h c true w) with
    | mk q kb ic snt =>
      rw [hx] at hqf
      simp only at hqf
      rw [hqf]
      rfl

/-- C3, amended, at `X = enter` on the sample host. -/
theorem down_up_emits_press_then_release_witness :
    "enter".toList ≠ [] ∧ (∀ ch ∈ "enter".toList, isWordChar ch = true) ∧
      findKey sampleHost "enter".toList = some 0x0D ∧
      (queueInputs sampleHost ["enter".toList ++ " down".toList, "enter".toList ++ " up".toList]
            none emptyWorld =
          .ok { emptyWorld with queuedTasks :=
                  [⟨0, some (.sendKey 0x0D true), false⟩,
                   ⟨0, some (.sendKey 0x0D false), false⟩] } ∧
        ticks sampleHost 1 1
            { w := { emptyWorld with queuedTasks :=
                      [⟨0, some (.sendKey 0x0D true), false⟩,
                       ⟨0, some (.sendKey 0x0D false), false⟩] },
              trace := [] } =
          some { w := { sendKeyInput sampleHost 0x0D true emptyWorld with
                          queuedTasks := [⟨0, some (.sendKey 0x0D false), false⟩] },
                 trace := [] ++ [.task ⟨-1, some (.sendKey 0x0D true), false⟩] } ∧
        ticks sampleHost 1 2
            { w := { emptyWorld with queuedTasks :=
                      [⟨0, some (.sendKey 0x0D true), false⟩,
                       ⟨0, some (.sendKey 0x0D false), false⟩] },
              trace := [] } =
          some { w := sendKeyInput sampleHost 0x0D false
                        (sendKeyInput sampleHost 0x0D true emptyWorld),
                 trace := [] ++ [.task ⟨-1, some (.sendKey 0x0D true), false⟩,
                                 .task ⟨-1, some (.sendKey 0x0D false), false⟩] } ∧
        (sendKeyInput sampleHost 0x0D false
          (sendKeyInput sampleHost 0x0D true emptyWorld)).queuedTasks = []) :=
  ⟨by decide, by decide, rfl,
    down_up_emits_press_then_release sampleHost "enter".toList 0x0D 1 emptyWorld []
      (by decide) (by decide) (by decide) (by decide) (by decide) rfl rfl (by decide)⟩


/-! ## The key-down dispatch -/

theorem keyDownLoop_cons (h : Host) (s : Sys) (vkCode index : Nat) (keybind : Keybind)
    (rest : List Keybind) :
    keyDownLoop h s vkCode index (keybind :: rest) =
      match modifiersPressed h s.w keybind with
      | .error e => .error e
      | .ok pressed =>
        if vkCode = keybind.keyCode ∧ keybind.isPressed = false ∧ pressed = true then
          if s.w.inChat = false then
            .ok (some { w := keybind.function.run h
                          { s.w with keybinds :=
                              s.w.keybinds.set index { keybind with isPressed := true } },
                        trace := s.trace ++ [.keybind index] })
          else
            .ok (some { s with w :=
                          { s.w with keybinds :=
                              s.w.keybinds.set index { keybind with isPressed := true } } })
        else keyDownLoop h s vkCode (index + 1) rest := rfl

/-- The scan passes over bindings whose modifier check completes and that do
not fire. -/
theorem keyDownLoop_skip (h : Host) (s : Sys) (vkCode : Nat) (pre rest : List Keybind) :
    ∀ index, (∀ kb ∈ pre, ∃ b, modifiersPressed h s.w kb = .ok b ∧
        ¬ (vkCode = kb.keyCode ∧ kb.isPressed = false ∧ b = true)) →
      keyDownLoop h s vkCode index (pre ++ rest) =
        keyDownLoop h s vkCode (index + pre.length) rest := by
  induction pre with
  | nil => intro index _; rfl
  | cons kb l ih =>
    intro index hskip
    obtain ⟨b, hb, hnot⟩ := hskip kb (List.mem_cons_self _ _)
    rw [List.cons_append, keyDownLoop_cons, hb]
    dsimp only
    rw [if_neg hnot, ih (index + 1) (fun x hx => hskip x (List.mem_cons_of_mem _ hx)),
      List.length_cons]
    congr 1
    omega

/-- A binding that the scan fires was idle, and the only entry the call adds to
the trace is the one of that binding. -/
theorem keyDownLoop_trace (h : Host) (s : Sys) (vkCode : Nat) (rest : List Keybind) :
    ∀ index s1, keyDownLoop h s vkCode index rest = .ok (some s1) →
      s1.trace = s.trace ∨
        ∃ j kb, index ≤ j ∧ rest[j - index]? = some kb ∧ kb.isPressed = false ∧
          s1.trace = s.trace ++ [.keybind j] := by
  induction rest with
  | nil =>
    intro index s1 hr
    exact absurd hr (by simp [keyDownLoop])
  | cons kb l ih =>
    intro index s1 hr
    rw [keyDownLoop_cons] at hr
    cases hm : modifiersPressed h s.w kb with
    | error e =>
      rw [hm] at hr
      exact absurd hr (by simp)
    | ok pressed =>
      rw [hm] at hr
      dsimp only at hr
      by_cases hfire : vkCode = kb.keyCode ∧ kb.isPressed = false ∧ pressed = true
      · rw [if_pos hfire] at hr
        by_cases hchat : s.w.inChat = false
        · rw [if_pos hchat] at hr
          have hs1 := Option.some.inj (Except.ok.inj hr)
          refine Or.inr ⟨index, kb, le_refl _, by simp, hfire.2.1, ?_⟩
          rw [← hs1]
        · rw [if_neg hchat] at hr
          have hs1 := Option.some.inj (Except.ok.inj hr)
          refine Or.inl ?_
          rw [← hs1]
      · rw [if_neg hfire] at hr
        rcases ih (index + 1) s1 hr with h0 | ⟨j, kb1, hj, hget, hidle, htr⟩
        · exact Or.inl h0
        · refine Or.inr ⟨j, kb1, by omega, ?_, hidle, htr⟩
          have hji : j - index = (j - (index + 1)) + 1 := by omega
          rw [hji, List.getElem?_cons_succ]
          exact hget


/-- C1 as stated fails. With two idle bindings for the code 65 a key-down for
65 fires the one registered first: the second stays idle and its function is
not called. With `inChat` set, the key-down marks the binding held and calls
no function. -/
theorem keyDown_does_not_fire_every_idle_binding :
    WndProcHook sampleHost WM_KEYDOWN 65 twoBindingsSys =
        .ok ({ w := { queuedTasks := [⟨0, some (.user 1), false⟩],
                      keybinds := [⟨65, true, .trigger (.user 1), []⟩,
                                   ⟨65, false, .trigger (.user 2), []⟩],
                      inChat := false, sent := [] },
               trace := [.keybind 0] }, .zero) ∧
      WndProcHook sampleHost WM_KEYDOWN 65 chatSys =
        .ok ({ w := { queuedTasks := [], keybinds := [⟨65, true, .trigger (.user 1), []⟩],
                      inChat := true, sent := [] },
               trace := [] }, .zero) := by
  exact ⟨rfl, rfl⟩

/-- C1, amended: let `B` be the binding at position `i` of the registry, with
no modifier, and let the scan pass over every binding registered before `B`
(its modifier check completes and it does not fire). A key-down whose code is
`B.keyCode`, received while `B.isPressed` and `inChat` are false, returns 0
after it has set `B.isPressed` and called the function of `B` once: the world
is the one that this function leaves when run in the world with `B` held, and
the trace grows by the single entry of `B`. A key-down received in any system
in which the binding at position `i` is held calls the function of that
binding zero times. -/
theorem keyDown_fires_idle_binding_once (h : Host) (s : Sys) (i : Nat) (B : Keybind)
    (uMsg wParam : Nat) (hmsg : uMsg = WM_KEYDOWN ∨ uMsg = WM_SYSKEYDOWN)
    (hB : s.w.keybinds[i]? = some B) (hmods : B.modifiers = [])
    (hcode : wParam % 2 ^ 32 = B.keyCode) (hidle : B.isPressed = false)
    (hchat : s.w.inChat = false)
    (hbefore : ∀ kb ∈ s.w.keybinds.take i, ∃ b, modifiersPressed h s.w kb = .ok b ∧
      ¬ (B.keyCode = kb.keyCode ∧ kb.isPressed = false ∧ b = true)) :
    WndProcHook h uMsg wParam s =
        .ok ({ w := B.function.run h
                      { s.w with keybinds := s.w.keybinds.set i { B with isPressed := true } },
               trace := s.trace ++ [.keybind i] }, .zero) ∧
      ∀ (s2 : Sys) (B2 : Keybind), s2.w.keybinds[i]? = some B2 → B2.isPressed = true →
        (sysAfter s2 (WndProcHook h uMsg wParam s2)).trace.count (.keybind i) =
          s2.trace.count (.keybind i) := by
  constructor
  · have hi : i < s.w.keybinds.length := by
      rcases Nat.lt_or_ge i s.w.keybinds.length with hlt | hge
      · exact hlt
      · rw [List.getElem?_eq_none hge] at hB
        exact absurd hB (by simp)
    have hBget : s.w.keybinds[i] = B := by
      rw [List.getElem?_eq_getElem hi] at hB
      exact Option.some.inj hB
    have hsplit : s.w.keybinds = s.w.keybinds.take i ++ B :: s.w.keybinds.drop (i + 1) := by
      rw [← hBget, List.getElem_cons_drop _ _ hi, List.take_append_drop]
    have hlen : (s.w.keybinds.take i).length = i := by
      rw [List.length_take]
      omega
    have hmp : modifiersPressed h s.w B = .ok true := by
      unfold modifiersPressed
      rw [hmods]
      rfl
    have hloop : keyDownLoop h s (wParam % 2 ^ 32) 0 s.w.keybinds =
        .ok (some { w := B.function.run h
                      { s.w with keybinds := s.w.keybinds.set i { B with isPressed := true } },
                    trace := s.trace ++ [.keybind i] }) := by
      conv_lhs => rw [hsplit]
      rw [keyDownLoop_skip h s _ _ _ 0 (by rw [hcode]; exact hbefore), hlen, Nat.zero_add,
        keyDownLoop_cons, hmp]
      dsimp only
      rw [if_pos ⟨hcode, hidle, rfl⟩, if_pos hchat]
    unfold WndProcHook
    rw [if_pos hmsg, hloop]
  · intro s2 B2 hB2 hheld
    unfold WndProcHook
    rw [if_pos hmsg]
    cases hloop : keyDownLoop h s2 (wParam % 2 ^ 32) 0 s2.w.keybinds with
    | error e => rfl
    | ok r =>
      cases r with
      | none => rfl
      | some s3 =>
        dsimp only [sysAfter]
        rcases keyDownLoop_trace h s2 _ _ 0 s3 hloop with h0 | ⟨j, kb, -, hget, hkidle, htr⟩
        · rw [h0]
        · have hji : j ≠ i := by
            rintro rfl
            rw [Nat.sub_zero, hB2] at hget
            rw [← Option.some.inj hget, hheld] at hkidle
            exact absurd hkidle (by decide)
          rw [htr, List.count_append, List.count_singleton]
          have : (Call.keybind j == Call.keybind i) = false := by
            rw [beq_eq_false_iff_ne]
            intro hc
            exact hji (Call.keybind.inj hc)
          rw [this]
          rfl

/-- C1, amended, on a registry of two bindings for different keys, for the
second of them. -/
theorem keyDown_fires_idle_binding_once_witness :
    (WM_KEYDOWN = WM_KEYDOWN ∨ WM_KEYDOWN = WM_SYSKEYDOWN) ∧
      ({ w := { queuedTasks := [],
                keybinds := [⟨66, false, .trigger (.user 1), ["shift".toList]⟩,
                             ⟨65, false, .trigger (.user 2), []⟩],
                inChat := false, sent := [] },
         trace := [] } : Sys).w.keybinds[1]? = some ⟨65, false, .trigger (.user 2), []⟩ ∧
      (WndProcHook sampleHost WM_KEYDOWN 65
            { w := { queuedTasks := [],
                     keybinds := [⟨66, false, .trigger (.user 1), ["shift".toList]⟩,
                                  ⟨65, false, .trigger (.user 2), []⟩],
                     inChat := false, sent := [] },
              trace := [] } =
          .ok ({ w := (Action.trigger (.user 2)).run sampleHost
                        { queuedTasks := [],
                          keybinds := [⟨66, false, .trigger (.user 1), ["shift".toList]⟩,
                                       ⟨65, true, .trigger (.user 2), []⟩],
                          inChat := false, sent := [] },
                 trace := [] ++ [.keybind 1] }, .zero) ∧
        ∀ (s2 : Sys) (B2 : Keybind), s2.w.keybinds[1]? = some B2 → B2.isPressed = true →
          (sysAfter s2 (WndProcHook sampleHost WM_KEYDOWN 65 s2)).trace.count (.keybind 1) =
            s2.trace.count (.keybind 1)) :=
  ⟨Or.inl rfl, rfl,
    keyDown_fires_idle_binding_once sampleHost
      { w := { queuedTasks := [],
               keybinds := [⟨66, false, .trigger (.user 1), ["shift".toList]⟩,
                            ⟨65, false, .trigger (.user 2), []⟩],
               inChat := false, sent := [] },
        trace := [] } 1 ⟨65, false, .trigger (.user 2), []⟩ WM_KEYDOWN 65 (Or.inl rfl) rfl rfl
      (by decide) rfl rfl
      (by
        intro kb hkb
        have hk : kb = ⟨66, false, .trigger (.user 1), ["shift".toList]⟩ := by
          simpa using hkb
        subst hk
        exact ⟨false, rfl, by decide⟩)⟩

/-! ## The input synthesizer -/

theorem isExtendedKey_iff (vkCode : Nat) :
    isExtendedKey vkCode = true ↔
      vkCode ∈ [VK_UP, VK_DOWN, VK_LEFT, VK_RIGHT, VK_HOME, VK_END, VK_PRIOR, VK_NEXT,
        VK_INSERT, VK_DELETE, VK_LCONTROL, VK_RCONTROL, VK_LSHIFT, VK_RSHIFT, VK_LMENU,
        VK_RMENU, VK_APPS] := by
  simp only [isExtendedKey, Bool.or_eq_true, beq_iff_eq, List.mem_cons, List.mem_singleton,
    List.not_mem_nil, or_false, or_assoc]

/-- C14: what `sendKeyInput` hands to `SendInput`. For the left, right and
middle button codes it is one mouse record, the button-down flag when
`pressDown` holds and the button-up flag otherwise. For the pseudo-codes 0x1001
and 0x1000 it is two wheel records whatever `pressDown` is, the first with
delta `WHEEL_DELTA` resp. `-WHEEL_DELTA` (as a `DWORD`), the second with delta
0. For every other code it is one keyboard record for that code, whose flags
hold `KEYEVENTF_KEYUP` exactly when `pressDown` is false and
`KEYEVENTF_EXTENDEDKEY` exactly when the code is one of the arrows, Home, End,
PageUp, PageDown, Insert, Delete, left or right Control, Shift, Alt, or Apps.
Nothing else of the world changes. -/
theorem sendKeyInput_events (h : Host) (vkCode : Nat) (pressDown : Bool) (w : World) :
    (vkCode = VK_LBUTTON → sendKeyInput h vkCode pressDown w =
        { w with sent := w.sent ++
          [.mouse (if pressDown then MOUSEEVENTF_LEFTDOWN else MOUSEEVENTF_LEFTUP) 0] }) ∧
      (vkCode = VK_RBUTTON → sendKeyInput h vkCode pressDown w =
        { w with sent := w.sent ++
          [.mouse (if pressDown then MOUSEEVENTF_RIGHTDOWN else MOUSEEVENTF_RIGHTUP) 0] }) ∧
      (vkCode = VK_MBUTTON → sendKeyInput h vkCode pressDown w =
        { w with sent := w.sent ++
          [.mouse (if pressDown then MOUSEEVENTF_MIDDLEDOWN else MOUSEEVENTF_MIDDLEUP) 0] }) ∧
      (vkCode = 0x1001 → sendKeyInput h vkCode pressDown w =
        { w with sent := w.sent ++
          [.mouse MOUSEEVENTF_WHEEL WHEEL_DELTA, .mouse MOUSEEVENTF_WHEEL 0] }) ∧
      (vkCode = 0x1000 → sendKeyInput h vkCode pressDown w =
        { w with sent := w.sent ++
          [.mouse MOUSEEVENTF_WHEEL (2 ^ 32 - WHEEL_DELTA), .mouse MOUSEEVENTF_WHEEL 0] }) ∧
      (vkCode ∉ [VK_LBUTTON, VK_RBUTTON, VK_MBUTTON, 0x1001, 0x1000] →
        ∃ dwFlags : Nat,
          sendKeyInput h vkCode pressDown w =
            { w with sent := w.sent ++
              [.keyboard vkCode (h.MapVirtualKey vkCode MAPVK_VK_TO_VSC % 65536) dwFlags] } ∧
          (dwFlags &&& KEYEVENTF_KEYUP ≠ 0 ↔ pressDown = false) ∧
          (dwFlags &&& KEYEVENTF_EXTENDEDKEY ≠ 0 ↔
            vkCode ∈ [VK_UP, VK_DOWN, VK_LEFT, VK_RIGHT, VK_HOME, VK_END, VK_PRIOR, VK_NEXT,
              VK_INSERT, VK_DELETE, VK_LCONTROL, VK_RCONTROL, VK_LSHIFT, VK_RSHIFT, VK_LMENU,
              VK_RMENU, VK_APPS])) := by
  refine ⟨?_, ?_, ?_, ?_, ?_, ?_⟩
  · rintro rfl
    cases pressDown <;> rfl
  · rintro rfl
    cases pressDown <;> rfl
  · rintro rfl
    cases pressDown <;> rfl
  · rintro rfl
    simp [sendKeyInput, SendInput, VK_LBUTTON, VK_RBUTTON, VK_MBUTTON]
  · rintro rfl
    simp [sendKeyInput, SendInput, VK_LBUTTON, VK_RBUTTON, VK_MBUTTON]
  · intro hother
    simp only [List.mem_cons, List.mem_singleton, List.not_mem_nil, or_false, not_or] at hother
    obtain ⟨h1, h2, h3, h4, h5⟩ := hother
    have hb : ¬ (vkCode = VK_LBUTTON ∨ vkCode = VK_RBUTTON ∨ vkCode = VK_MBUTTON) := by
      rintro (hc | hc | hc)
      · exact h1 hc
      · exact h2 hc
      · exact h3 hc
    have hwh : ¬ (vkCode = 0x1001 ∨ vkCode = 0x1000) := by
      rintro (hc | hc)
      · exact h4 hc
      · exact h5 hc
    rw [← isExtendedKey_iff]
    unfold sendKeyInput
    rw [if_neg hb, if_neg hwh]
    cases hext : isExtendedKey vkCode <;> cases pressDown
    · exact ⟨_, rfl, by decide, by decide⟩
    · exact ⟨_, rfl, by decide, by decide⟩
    · exact ⟨_, rfl, by decide, by decide⟩
    · exact ⟨_, rfl, by decide, by decide⟩

/-! ## Termination and the number of calls -/

theorem dueRun_length_le (q : List Task) : (dueRun q).length ≤ q.length := by
  obtain ⟨r, hr⟩ := dueRun_append q
  have := congrArg List.length hr
  rw [List.length_append] at this
  omega

theorem peekFront_length (l : List Task) : (peekFront l).length = l.length := by
  cases l <;> rfl

/-- A call that returns within a loop bound returns the same system within
every larger bound. -/
theorem executeFirstQueuedTask_mono (h : Host) :
    ∀ (fuel : Nat) (s s1 : Sys), executeFirstQueuedTask h fuel s = some s1 →
      executeFirstQueuedTask h (fuel + 1) s = some s1 := by
  intro fuel
  induction fuel with
  | zero =>
    intro s s1 hr
    exact absurd hr (by simp [executeFirstQueuedTask])
  | succ f ih =>
    intro s s1 hr
    cases hq : s.w.queuedTasks with
    | nil =>
      rw [executeFirstQueuedTask_nil h f s hq] at hr
      rw [executeFirstQueuedTask_nil h (f + 1) s hq]
      exact hr
    | cons t rest =>
      by_cases hd : t.delay - 1 < 0
      · cases hrec : t.recursive with
        | false =>
          rw [executeFirstQueuedTask_due_stop h f s t rest hq hd hrec] at hr
          rw [executeFirstQueuedTask_due_stop h (f + 1) s t rest hq hd hrec]
          exact hr
        | true =>
          rw [executeFirstQueuedTask_due_chain h f s t rest hq hd hrec] at hr
          rw [executeFirstQueuedTask_due_chain h (f + 1) s t rest hq hd hrec]
          exact ih _ _ hr
      · rw [executeFirstQueuedTask_not_due h f s t rest hq hd] at hr
        rw [executeFirstQueuedTask_not_due h (f + 1) s t rest hq hd]
        exact hr

theorem executeFirstQueuedTask_mono_le (h : Host) (fuel fuel1 : Nat) (s s1 : Sys)
    (hr : executeFirstQueuedTask h fuel s = some s1) (hle : fuel ≤ fuel1) :
    executeFirstQueuedTask h fuel1 s = some s1 := by
  induction fuel1 with
  | zero =>
    have : fuel = 0 := by omega
    rw [this] at hr
    exact hr
  | succ k ih =>
    rcases Nat.lt_or_ge fuel (k + 1) with hlt | hge
    · exact executeFirstQueuedTask_mono h k s s1 (ih (by omega))
    · have : fuel = k + 1 := by omega
      rw [this] at hr
      exact hr

/-- C20: on a queue whose actions enqueue nothing (they leave the queue as it
is), `executeFirstQueuedTask` terminates: with every loop bound above the
length of the queue the call returns, and it returns the same system. The
number of tasks it executes and the number of tasks it leaves add up to the
length of the queue on entry, so every iteration that executes a task removes
one entry, and at most as many tasks run as the queue held, also when all of
them are chained and due. -/
theorem executeFirstQueuedTask_terminates (h : Host) (s : Sys)
    (hs : QueueStable h s.w.queuedTasks) :
    ∃ (s1 : Sys) (executed : List Task),
      (∀ fuel, s.w.queuedTasks.length < fuel → executeFirstQueuedTask h fuel s = some s1) ∧
      s1.trace = s.trace ++ executed.map Call.task ∧
      executed.length ≤ s.w.queuedTasks.length ∧
      s1.w.queuedTasks.length + executed.length = s.w.queuedTasks.length := by
  obtain ⟨s1, h1, h2, h3⟩ := executeFirstQueuedTask_stable h s.w.queuedTasks
    (s.w.queuedTasks.length + 1) s rfl hs (Nat.lt_succ_self _)
  have hle := dueRun_length_le s.w.queuedTasks
  refine ⟨s1, (dueRun s.w.queuedTasks).map popped, ?_, ?_, ?_, ?_⟩
  · intro fuel hfuel
    exact executeFirstQueuedTask_mono_le h _ fuel s s1 h1 (by omega)
  · rw [h2, List.map_map]
    rfl
  · rw [List.length_map]
    exact hle
  · rw [h3, List.length_map]
    split
    · rw [List.length_drop]
      omega
    · rw [peekFront_length, List.length_drop]
      omega

/-- C20 on a queue of three due tasks, the last two of them chained. -/
theorem executeFirstQueuedTask_terminates_witness :
    QueueStable sampleHost zeroDelaySys.w.queuedTasks ∧
      ∃ (s1 : Sys) (executed : List Task),
        (∀ fuel, zeroDelaySys.w.queuedTasks.length < fuel →
          executeFirstQueuedTask sampleHost fuel zeroDelaySys = some s1) ∧
        s1.trace = zeroDelaySys.trace ++ executed.map Call.task ∧
        executed.length ≤ zeroDelaySys.w.queuedTasks.length ∧
        s1.w.queuedTasks.length + executed.length = zeroDelaySys.w.queuedTasks.length :=
  ⟨QueueStable_of_plainQueue sampleHost _ (by decide),
    executeFirstQueuedTask_terminates sampleHost zeroDelaySys
      (QueueStable_of_plainQueue sampleHost _ (by decide))⟩
theorem dueRun_ne_nil_of_zero_delay (t : Task) (rest : List Task) (hz : t.delay = 0) :
    dueRun (t :: rest) ≠ [] := by
  have hd : t.delay - 1 < 0 := by
    rw [hz]
    decide
  unfold dueRun
  rw [if_pos hd]
  split <;> exact List.cons_ne_nil _ _

/-- With all delays 0 no entry is left peeked: the queue after one call is the
queue on entry without the tasks that ran. -/
theorem after_zero_delay (q : List Task) (hz : ∀ t ∈ q, t.delay = 0) :
    (if ((dueRun q).getLast?.map (fun t => t.recursive)) = some false
      then q.drop (dueRun q).length else peekFront (q.drop (dueRun q).length)) =
      q.drop (dueRun q).length := by
  induction q with
  | nil => simp [dueRun, peekFront]
  | cons t rest ih =>
    have hd : t.delay - 1 < 0 := by
      rw [hz t (List.mem_cons_self _ _)]
      decide
    have hzr : ∀ x ∈ rest, x.delay = 0 := fun x hx => hz x (List.mem_cons_of_mem _ hx)
    cases hr : t.recursive with
    | false => simp [dueRun, hd, hr]
    | true =>
      cases hrest : rest with
      | nil => simp [dueRun, hd, hr, peekFront]
      | cons a l =>
        have hne : dueRun (a :: l) ≠ [] :=
          dueRun_ne_nil_of_zero_delay a l (hzr a (by rw [hrest]; exact List.mem_cons_self _ _))
        have ih1 := ih hzr
        rw [hrest] at ih1
        obtain ⟨b, m, hbm⟩ : ∃ b m, dueRun (a :: l) = b :: m := by
          cases hx : dueRun (a :: l) with
          | nil => exact absurd hx hne
          | cons b m => exact ⟨b, m, rfl⟩
        have hdr : dueRun (t :: a :: l) = t :: dueRun (a :: l) := by
          conv_lhs => unfold dueRun
          rw [if_pos hd, hr]
          rfl
        rw [hdr, hbm, List.getLast?_cons_cons, List.length_cons, List.drop_succ_cons, ← hbm]
        exact ih1

theorem callsToDrain_step (q : List Task) (hne : q ≠ []) (hz : ∀ t ∈ q, t.delay = 0) :
    callsToDrain q = callsToDrain (q.drop (dueRun q).length) + 1 := by
  induction q with
  | nil => exact absurd rfl hne
  | cons t rest ih =>
    have hd : t.delay - 1 < 0 := by
      rw [hz t (List.mem_cons_self _ _)]
      decide
    have hzr : ∀ x ∈ rest, x.delay = 0 := fun x hx => hz x (List.mem_cons_of_mem _ hx)
    cases hr : t.recursive with
    | false =>
      have hdr : dueRun (t :: rest) = [t] := by
        conv_lhs => unfold dueRun
        rw [if_pos hd, hr]
        rfl
      rw [hdr]
      cases rest with
      | nil => simp [callsToDrain, hr]
      | cons a l =>
        show callsToDrain (t :: a :: l) = callsToDrain (a :: l) + 1
        unfold callsToDrain
        rw [List.getLast?_cons_cons, List.filter_cons]
        simp only [hr, Bool.not_false, if_true, List.length_cons]
        omega
    | true =>
      have hdr : dueRun (t :: rest) = t :: dueRun rest := by
        conv_lhs => unfold dueRun
        rw [if_pos hd, hr]
        rfl
      rw [hdr, List.length_cons, List.drop_succ_cons]
      cases hrest : rest with
      | nil => simp [callsToDrain, hr, dueRun]
      | cons a l =>
        have ih1 := ih (by rw [hrest]; exact List.cons_ne_nil _ _) hzr
        rw [hrest] at ih1
        rw [← ih1]
        simp only [callsToDrain, List.getLast?_cons_cons, List.filter_cons, hr, Bool.not_true,
          Bool.false_eq_true, if_false]

theorem QueueStable_drop (h : Host) (q : List Task) (k : Nat) (hs : QueueStable h q) :
    QueueStable h (q.drop k) :=
  fun t ht => hs t (List.mem_of_mem_drop ht)

theorem ticks_to_drain_aux (h : Host) (fuel : Nat) :
    ∀ (n : Nat) (s : Sys), s.w.queuedTasks.length = n → (∀ t ∈ s.w.queuedTasks, t.delay = 0) →
      QueueStable h s.w.queuedTasks → n < fuel →
      (∃ s1, ticks h fuel (callsToDrain s.w.queuedTasks) s = some s1 ∧ s1.w.queuedTasks = []) ∧
        ∀ k < callsToDrain s.w.queuedTasks,
          ∃ s1, ticks h fuel k s = some s1 ∧ s1.w.queuedTasks ≠ [] := by
  intro n
  induction n using Nat.strong_induction_on with
  | _ n ih =>
    intro s hlen hz hs hfuel
    cases hq : s.w.queuedTasks with
    | nil =>
      refine ⟨⟨s, rfl, hq⟩, ?_⟩
      intro k hk
      exact absurd hk (by simp [callsToDrain])
    | cons t rest =>
      have hne : s.w.queuedTasks ≠ [] := by
        rw [hq]
        exact List.cons_ne_nil _ _
      obtain ⟨s1, h1, -, h3⟩ := executeFirstQueuedTask_stable h s.w.queuedTasks fuel s rfl hs
        (by omega)
      rw [after_zero_delay _ hz] at h3
      have hrun : 0 < (dueRun s.w.queuedTasks).length := by
        rw [hq]
        exact List.length_pos.mpr
          (dueRun_ne_nil_of_zero_delay t rest (hz t (by rw [hq]; exact List.mem_cons_self _ _)))
      have hlen1 : s1.w.queuedTasks.length < n := by
        rw [h3, List.length_drop, ← hlen]
        have hpos : 0 < s.w.queuedTasks.length := List.length_pos.mpr hne
        omega
      have hz1 : ∀ x ∈ s1.w.queuedTasks, x.delay = 0 := by
        intro x hx
        rw [h3] at hx
        exact hz x (List.mem_of_mem_drop hx)
      have hs1 : QueueStable h s1.w.queuedTasks := by
        rw [h3]
        exact QueueStable_drop h _ _ hs
      obtain ⟨⟨s2, g1, g2⟩, g3⟩ := ih _ hlen1 s1 rfl hz1 hs1 (by omega)
      have hstep := callsToDrain_step s.w.queuedTasks hne hz
      rw [← h3] at hstep
      rw [← hq, hstep]
      refine ⟨⟨s2, ?_, g2⟩, ?_⟩
      · rw [ticks_succ, h1]
        exact g1
      · intro k hk
        cases k with
        | zero => exact ⟨s, rfl, hne⟩
        | succ k1 =>
          obtain ⟨s3, e1, e2⟩ := g3 k1 (by omega)
          exact ⟨s3, by rw [ticks_succ, h1]; exact e1, e2⟩

/-- C18: on a queue whose entries all have delay 0 and whose actions enqueue
nothing (they leave the queue as it is), the queue is empty after as many calls
of `executeFirstQueuedTask` as it has entries that are not chained, plus one
when its last entry is chained, and it is not empty after fewer calls. -/
theorem ticks_to_drain (h : Host) (fuel : Nat) (s : Sys) (hne : s.w.queuedTasks ≠ [])
    (hz : ∀ t ∈ s.w.queuedTasks, t.delay = 0) (hs : QueueStable h s.w.queuedTasks)
    (hfuel : s.w.queuedTasks.length < fuel) :
    0 < callsToDrain s.w.queuedTasks ∧
      (∃ s1, ticks h fuel (callsToDrain s.w.queuedTasks) s = some s1 ∧
        s1.w.queuedTasks = []) ∧
      ∀ k < callsToDrain s.w.queuedTasks,
        ∃ s1, ticks h fuel k s = some s1 ∧ s1.w.queuedTasks ≠ [] := by
  refine ⟨?_, ticks_to_drain_aux h fuel _ s rfl hz hs hfuel⟩
  rw [callsToDrain_step _ hne hz]
  omega

/-- C18 on a queue of three tasks of delay 0, one unchained and the last one
chained: two calls. -/
theorem ticks_to_drain_witness :
    zeroDelaySys.w.queuedTasks ≠ [] ∧ (∀ t ∈ zeroDelaySys.w.queuedTasks, t.delay = 0) ∧
      callsToDrain zeroDelaySys.w.queuedTasks = 2 ∧
      (0 < callsToDrain zeroDelaySys.w.queuedTasks ∧
        (∃ s1, ticks sampleHost 4 (callsToDrain zeroDelaySys.w.queuedTasks) zeroDelaySys =
            some s1 ∧ s1.w.queuedTasks = []) ∧
        ∀ k < callsToDrain zeroDelaySys.w.queuedTasks,
          ∃ s1, ticks sampleHost 4 k zeroDelaySys = some s1 ∧ s1.w.queuedTasks ≠ []) :=
  ⟨by decide, by decide, by decide,
    ticks_to_drain sampleHost 4 zeroDelaySys (by decide) (by decide)
      (QueueStable_of_plainQueue sampleHost _ (by decide)) (by decide)⟩

/-! ## The wrapper stored by the `Keybind` constructor -/

/-- C19: the `Keybind` constructor registers an idle binding whose function is
the wrapper of the user's function. Called on an empty queue, the wrapper
pushes exactly one task (delay 0, the user's function, not chained), and the
next call of `executeFirstQueuedTask` runs the user's function and nothing
else: the world it leaves is the one the user's function leaves, so whatever
that function has queued is still queued and waits for a later call. Called on
a queue that is not empty, the wrapper leaves the world as it is. -/
theorem trigger_queues_only_on_empty_queue (h : Host) (keyCode fuel : Nat) (function : Action)
    (modifiers : List Str) (w : World) (tr : List Call) (hfuel : 0 < fuel) :
    (Keybind.new keyCode function modifiers w).keybinds =
        w.keybinds ++ [⟨keyCode % 2 ^ 32, false, .trigger function, modifiers⟩] ∧
      (w.queuedTasks = [] →
        (Action.trigger function).run h w =
            { w with queuedTasks := [⟨0, some function, false⟩] } ∧
          executeFirstQueuedTask h fuel
              { w := { w with queuedTasks := [⟨0, some function, false⟩] }, trace := tr } =
            some { w := function.run h w,
                   trace := tr ++ [.task ⟨-1, some function, false⟩] }) ∧
      (w.queuedTasks ≠ [] → (Action.trigger function).run h w = w) := by
  obtain ⟨f, rfl⟩ : ∃ f, fuel = f + 1 := ⟨fuel - 1, by omega⟩
  refine ⟨rfl, ?_, ?_⟩
  · intro hq
    constructor
    · simp [Action.run, hq, queueTask]
    · have h0 : (0 : Int) - 1 < 0 := by decide
      rw [executeFirstQueuedTask_due_stop h f _ ⟨0, some function, false⟩ [] rfl h0 rfl]
      have hw : ({ w with queuedTasks := [] } : World) = w := by
        cases w with
        | mk q kb ic snt =>
          simp only at hq
          rw [hq]
      show some ({ w := function.run h { w with queuedTasks := [] },
                   trace := tr ++ [Call.task ⟨0 - 1, some function, false⟩] } : Sys) = _
      rw [hw]
      rfl
  · intro hq
    cases hq1 : w.queuedTasks with
    | nil => exact absurd hq1 hq
    | cons t rest => simp [Action.run, hq1]

/-- C19 for a binding of code 65 whose function is the caller function number
0, on the empty world and on the world of a non-empty queue. -/
theorem trigger_queues_only_on_empty_queue_witness :
    0 < 1 ∧
      ((Keybind.new 65 (.user 0) [] emptyWorld).keybinds =
          emptyWorld.keybinds ++ [⟨65 % 2 ^ 32, false, .trigger (.user 0), []⟩] ∧
        (emptyWorld.queuedTasks = [] →
          (Action.trigger (.user 0)).run sampleHost emptyWorld =
              { emptyWorld with queuedTasks := [⟨0, some (.user 0), false⟩] } ∧
            executeFirstQueuedTask sampleHost 1
                { w := { emptyWorld with queuedTasks := [⟨0, some (.user 0), false⟩] },
                  trace := [] } =
              some { w := (Action.user 0).run sampleHost emptyWorld,
                     trace := [] ++ [.task ⟨-1, some (.user 0), false⟩] }) ∧
        (emptyWorld.queuedTasks ≠ [] →
          (Action.trigger (.user 0)).run sampleHost emptyWorld = emptyWorld)) ∧
      (zeroDelaySys.w.queuedTasks ≠ [] →
        (Action.trigger (.user 0)).run sampleHost zeroDelaySys.w = zeroDelaySys.w) :=
  ⟨by decide,
    trigger_queues_only_on_empty_queue sampleHost 65 1 (.user 0) [] emptyWorld [] (by decide),
    (trigger_queues_only_on_empty_queue sampleHost 65 1 (.user 0) [] zeroDelaySys.w []
      (by decide)).2.2⟩

/-! ## Chained tokens -/

theorem matchSecond_digits_R (ds : Str) (hne : ds ≠ []) (hd : ∀ c ∈ ds, c.isDigit = true) :
    matchSecond (ds ++ ['R']) = some (ds, true) := by
  cases ds with
  | nil => exact absurd rfl hne
  | cons d l =>
    have hd0 : d.isDigit = true := hd d (List.mem_cons_self _ _)
    have h1 : "down".toList.isPrefixOf (d :: l ++ ['R']) = false := by
      have : ('d' == d) = false := by
        simpa using (isDigit_ne_d d hd0).symm
      show (('d' == d) && _) = false
      rw [this]
      rfl
    have h2 : "up".toList.isPrefixOf (d :: l ++ ['R']) = false := by
      have : ('u' == d) = false := by
        simpa using (isDigit_ne_u d hd0).symm
      show (('u' == d) && _) = false
      rw [this]
      rfl
    have hR : Char.isDigit 'R' = false := by decide
    have h3 : (d :: l ++ ['R']).takeWhile Char.isDigit = d :: l := by
      rw [List.takeWhile_append_of_pos hd]
      simp [List.takeWhile, hR]
    have h4 : (d :: l ++ ['R']).dropWhile Char.isDigit = ['R'] := by
      rw [List.dropWhile_append_of_pos hd]
      simp [List.dropWhile, hR]
    have h5 : matchR ['R'] = some true := rfl
    unfold matchSecond
    simp only [h1, h2, h3, h4, h5]
    simp

/-- One call drains a queue of due chained tasks that are pure delays or key
inputs. -/
theorem executeFirstQueuedTask_chained (h : Host) :
    ∀ (q : List Task) (fuel : Nat) (w : World) (tr : List Call), q.length < fuel →
      (∀ t ∈ q, t.delay - 1 < 0 ∧ t.recursive = true) → plainQueue q = true →
      executeFirstQueuedTask h fuel { w := { w with queuedTasks := q }, trace := tr } =
        some { w := { invokeAll h q w with queuedTasks := [] },
               trace := tr ++ (q.map popped).map Call.task } := by
  intro q
  induction q with
  | nil =>
    intro fuel w tr hfuel _ _
    obtain ⟨f, rfl⟩ : ∃ f, fuel = f + 1 := ⟨fuel - 1, by omega⟩
    rw [executeFirstQueuedTask_nil h f _ rfl]
    simp [invokeAll]
  | cons t rest ih =>
    intro fuel w tr hfuel hq hp
    obtain ⟨f, rfl⟩ : ∃ f, fuel = f + 1 := ⟨fuel - 1, by omega⟩
    obtain ⟨hd, hr⟩ := hq t (List.mem_cons_self _ _)
    have hpt : plainQueue [t] = true := by
      have := List.all_eq_true.mp hp t (List.mem_cons_self _ _)
      simpa [plainQueue] using this
    have hprest : plainQueue rest = true := by
      apply List.all_eq_true.mpr
      intro x hx
      exact List.all_eq_true.mp hp x (List.mem_cons_of_mem _ hx)
    rw [executeFirstQueuedTask_due_chain h f _ t rest rfl hd hr]
    dsimp only
    rw [invoke_withQueue h t w rest hpt,
      ih f (t.invoke h w) _ (by simpa using hfuel)
        (fun x hx => hq x (List.mem_cons_of_mem _ hx)) hprest]
    simp [invokeAll]

theorem withQueue_nil_of_empty (w : World) (hq : w.queuedTasks = []) :
    ({ w with queuedTasks := [] } : World) = w := by
  cases w with
  | mk q kb ic snt =>
    simp only at hq
    rw [hq]

/-- C13 as stated fails: the token `mR` queues an unchained press and a chained
release, so one call of `executeFirstQueuedTask` runs the press only and the
release is still queued. -/
theorem chained_token_needs_second_tick :
    queueInputs sampleHost ["mR".toList] none emptyWorld =
        .ok { emptyWorld with queuedTasks :=
                [⟨0, some (.sendKey 0x4D true), false⟩, ⟨0, some (.sendKey 0x4D false), true⟩] } ∧
      executeFirstQueuedTask sampleHost 3
          { w := { emptyWorld with queuedTasks :=
                    [⟨0, some (.sendKey 0x4D true), false⟩,
                     ⟨0, some (.sendKey 0x4D false), true⟩] },
            trace := [] } =
        some { w := { queuedTasks := [⟨0, some (.sendKey 0x4D false), true⟩], keybinds := [],
                      inChat := false, sent := [.keyboard 0x4D 0x4D KEYEVENTF_SCANCODE] },
               trace := [.task ⟨-1, some (.sendKey 0x4D true), false⟩] } := by
  exact ⟨rfl, rfl⟩

/-- C13, amended: a token with a trailing `R` whose entries are all queued
chained is executed whole by one call of `executeFirstQueuedTask`, which leaves
the queue empty. This is so for `X downR` and `X upR`, where the key name `X`
is made of word characters, is none of `sleep`, `wheelup`, `wheeldown`, and
resolves to `c`: the single entry runs `sendKeyInput(c, state)`. It is so for
`sleep nR` with a count `n` that fits an `int`: the `n` delays are popped and
the world is as before `queueInputs`. -/
theorem chained_state_token_runs_in_one_tick (h : Host) (X : Str) (c n fuel : Nat) (b : Bool)
    (w : World) (tr : List Call) (hne : X ≠ []) (hX : ∀ ch ∈ X, isWordChar ch = true)
    (hs : X ≠ "sleep".toList) (hwu : X ≠ "wheelup".toList) (hwd : X ≠ "wheeldown".toList)
    (hkey : findKey h X = some c) (hn : n ≤ INT_MAX) (hq : w.queuedTasks = [])
    (hfuel1 : 1 < fuel) (hfueln : n < fuel) :
    (queueInputs h [X ++ ' ' :: (stateWord b ++ ['R'])] none w =
          .ok { w with queuedTasks := [⟨0, some (.sendKey c b), true⟩] } ∧
        executeFirstQueuedTask h fuel
            { w := { w with queuedTasks := [⟨0, some (.sendKey c b), true⟩] }, trace := tr } =
          some { w := sendKeyInput h c b w,
                 trace := tr ++ [.task ⟨-1, some (.sendKey c b), true⟩] } ∧
        (sendKeyInput h c b w).queuedTasks = []) ∧
      (queueInputs h ["sleep ".toList ++ (Nat.toDigits 10 n ++ ['R'])] none w =
          .ok { w with queuedTasks := List.replicate n ⟨0, none, true⟩ } ∧
        executeFirstQueuedTask h fuel
            { w := { w with queuedTasks := List.replicate n ⟨0, none, true⟩ }, trace := tr } =
          some { w := w, trace := tr ++ List.replicate n (.task ⟨-1, none, true⟩) }) := by
  have h0 : (0 : Int) - 1 < 0 := by decide
  constructor
  · have hdir : ¬ ((X = "up".toList ∨ X = "down".toList) ∧ 1 ≠ 1 ∧ (some b) = none) := by
      rintro ⟨-, hc, -⟩
      exact hc rfl
    have harg : matchSecond (stateWord b ++ ['R']) = some (stateWord b, true) := by
      cases b <;> rfl
    have hparse : parseSecondArg (some (stateWord b)) = .ok (some b, 1) := by
      cases b <;> rfl
    have hstep := queueInputsStep_default h X (stateWord b ++ ['R']) (stateWord b) true (some b)
      1 c w hne hX harg hparse hs hwu hwd hdir hkey
    have hqf : (sendKeyInput h c b w).queuedTasks = [] := by
      rw [sendKeyInput_queuedTasks, hq]
    refine ⟨?_, ?_, hqf⟩
    · rw [queueInputs_cons, hstep]
      dsimp only
      rw [Function.iterate_one, queueInput_some, enqueue_of_empty w _ hq]
      rfl
    · rw [executeFirstQueuedTask_chained h [⟨0, some (.sendKey c b), true⟩] fuel w tr
        (by simpa using hfuel1)
        (fun t ht => by
          rw [List.mem_singleton.mp ht]
          exact ⟨h0, rfl⟩) rfl]
      have hw : invokeAll h [⟨0, some (.sendKey c b), true⟩] w = sendKeyInput h c b w := rfl
      rw [hw, withQueue_nil_of_empty _ hqf]
      rfl
  · have harg := matchSecond_digits_R (Nat.toDigits 10 n) (toDigits_ne_nil n) (toDigits_isDigit n)
    have hrm := regex_match_name_space "sleep".toList (Nat.toDigits 10 n ++ ['R']) _ true
      (by decide) (by decide) harg
    have htok : "sleep ".toList ++ (Nat.toDigits 10 n ++ ['R']) =
        "sleep".toList ++ ' ' :: (Nat.toDigits 10 n ++ ['R']) := rfl
    have hstep : queueInputsStep h ("sleep ".toList ++ (Nat.toDigits 10 n ++ ['R'])) w =
        .next (enqueue w (List.replicate n ⟨0, none, true⟩)) := by
      unfold queueInputsStep
      rw [htok, hrm]
      dsimp only
      rw [parseSecondArg_toDigits n hn]
      dsimp only
      rw [if_pos rfl, iterate_enqueue _ _ (fun w => queueTask_eq 0 none true w),
        List.flatten_replicate_singleton]
    constructor
    · rw [queueInputs_cons, hstep]
      dsimp only
      rw [enqueue_of_empty w _ hq]
      rfl
    · rw [executeFirstQueuedTask_chained h _ fuel w tr (by simpa using hfueln)
        (fun t ht => by
          rw [List.eq_of_mem_replicate ht]
          exact ⟨h0, rfl⟩)
        (by
          apply List.all_eq_true.mpr
          intro t ht
          rw [List.eq_of_mem_replicate ht])]
      have hinv : ∀ (k : Nat) (w : World),
          invokeAll h (List.replicate k ⟨0, none, true⟩) w = w := by
        intro k
        induction k with
        | zero => intro w; rfl
        | succ k ih =>
          intro w
          rw [List.replicate_succ, invokeAll, List.foldl_cons]
          exact ih _
      rw [hinv, withQueue_nil_of_empty _ hq, List.map_replicate, List.map_replicate]
      rfl

/-- C13, amended, at the tokens `enter downR` and `sleep 2R` on the sample
host. -/
theorem chained_state_token_runs_in_one_tick_witness :
    "enter".toList ≠ [] ∧ findKey sampleHost "enter".toList = some 0x0D ∧ 2 ≤ INT_MAX ∧
      ((queueInputs sampleHost ["enter".toList ++ ' ' :: (stateWord true ++ ['R'])] none
              emptyWorld =
            .ok { emptyWorld with queuedTasks := [⟨0, some (.sendKey 0x0D true), true⟩] } ∧
          executeFirstQueuedTask sampleHost 3
              { w := { emptyWorld with queuedTasks := [⟨0, some (.sendKey 0x0D true), true⟩] },
                trace := [] } =
            some { w := sendKeyInput sampleHost 0x0D true emptyWorld,
                   trace := [] ++ [.task ⟨-1, some (.sendKey 0x0D true), true⟩] } ∧
          (sendKeyInput sampleHost 0x0D true emptyWorld).queuedTasks = []) ∧
        (queueInputs sampleHost ["sleep ".toList ++ (Nat.toDigits 10 2 ++ ['R'])] none
              emptyWorld =
            .ok { emptyWorld with queuedTasks := List.replicate 2 ⟨0, none, true⟩ } ∧
          executeFirstQueuedTask sampleHost 3
              { w := { emptyWorld with queuedTasks := List.replicate 2 ⟨0, none, true⟩ },
                trace := [] } =
            some { w := emptyWorld,
                   trace := [] ++ List.replicate 2 (.task ⟨-1, none, true⟩) })) :=
  ⟨by decide, rfl, by decide,
    chained_state_token_runs_in_one_tick sampleHost "enter".toList 0x0D 2 3 true emptyWorld []
      (by decide) (by decide) (by decide) (by decide) (by decide) rfl (by decide) rfl
      (by decide) (by decide)⟩

/-! ## The directional fast path -/

theorem directionalPair_tasks (vk wh n : Nat) (w : World) :
    directionalPair vk wh n w =
      enqueue w (directionalTap vk ++ [wheelNotch wh] ++
        (if n ≥ 3 then [⟨0, none, false⟩] else [])) := by
  by_cases ha : n ≥ 3
  · simp [directionalPair, ha, queueInput_some, queueTask_eq, enqueue_enqueue, directionalTap,
      wheelNotch]
  · simp [directionalPair, ha, queueInput_some, enqueue_enqueue, directionalTap, wheelNotch]

theorem directionalInputs_tasks (vk wh n : Nat) (w : World) :
    directionalInputs vk wh n w = enqueue w (directionalTasks vk wh n) := by
  unfold directionalInputs directionalTasks
  dsimp only
  rw [iterate_enqueue _ _ (directionalPair_tasks vk wh n)]
  by_cases ho : n % 2 = 1
  · rw [if_pos ho, if_pos ho, queueInput_some, queueInput_some, enqueue_enqueue, enqueue_enqueue]
    rfl
  · rw [if_neg ho, if_neg ho, List.append_nil]

theorem count_flatten_replicate (a : Task) (k : Nat) (l : List Task) :
    List.count a (List.replicate k l).flatten = k * List.count a l := by
  induction k with
  | zero => simp
  | succ k ih =>
    rw [List.replicate_succ, List.flatten_cons, List.count_append, ih]
    ring

/-- C17: for the directional name `D` (`up` or `down`) that resolves to `c`,
with `wheel` followed by `D` resolving to `wh`, and a count `n ≠ 1` that fits
an `int`, the token `D n` pushes `n / 2` times a tap of `c` (press, then
release) and a wheel notch for `wh` (and after each of them a pure delay when
`n ≥ 3`), then one more tap of `c` exactly when `n` is odd. The taps, counted
by their presses, and the notches add up to `n`. -/
theorem directional_taps_plus_notches (h : Host) (D : Str) (c wh n : Nat) (w : World)
    (hD : D = "up".toList ∨ D = "down".toList) (hkey : findKey h D = some c)
    (hwheel : findKey h ("wheel".toList ++ D) = some wh) (hn1 : n ≠ 1) (hn : n ≤ INT_MAX) :
    queueInputs h [D ++ ' ' :: Nat.toDigits 10 n] none w =
        .ok (enqueue w (directionalTasks c wh n)) ∧
      directionalTasks c wh n =
        (List.replicate (n / 2)
            (directionalTap c ++ [wheelNotch wh] ++
              (if n ≥ 3 then [⟨0, none, false⟩] else []))).flatten ++
          (if n % 2 = 1 then directionalTap c else []) ∧
      List.count ⟨0, some (.sendKey c true), false⟩ (directionalTasks c wh n) =
        n / 2 + (if n % 2 = 1 then 1 else 0) ∧
      List.count (wheelNotch wh) (directionalTasks c wh n) = n / 2 ∧
      List.count ⟨0, some (.sendKey c true), false⟩ (directionalTasks c wh n) +
        List.count (wheelNotch wh) (directionalTasks c wh n) = n := by
  have hne : D ≠ [] := by
    rcases hD with rfl | rfl <;> decide
  have hword : ∀ ch ∈ D, isWordChar ch = true := by
    rcases hD with rfl | rfl <;> decide
  have hs : D ≠ "sleep".toList := by
    rcases hD with rfl | rfl <;> decide
  have hw : ¬ (D = "wheelup".toList ∨ D = "wheeldown".toList) := by
    rcases hD with rfl | rfl <;> decide
  have hstep : queueInputsStep h (D ++ ' ' :: Nat.toDigits 10 n) w =
      .next (directionalInputs c wh n w) := by
    unfold queueInputsStep
    rw [regex_match_name_space D (Nat.toDigits 10 n) _ false hne hword
      (matchSecond_digits _ (toDigits_ne_nil n) (toDigits_isDigit n))]
    dsimp only
    rw [parseSecondArg_toDigits n hn]
    dsimp only
    rw [if_neg hs, hkey]
    dsimp only
    rw [if_neg hw, if_pos ⟨hD, hn1, rfl⟩, hwheel]
  have hpress : List.count ⟨0, some (.sendKey c true), false⟩ (directionalTasks c wh n) =
      n / 2 + (if n % 2 = 1 then 1 else 0) := by
    unfold directionalTasks
    rw [List.count_append, count_flatten_replicate]
    have h1 : List.count ⟨0, some (.sendKey c true), false⟩
        (directionalTap c ++ [wheelNotch wh] ++ (if n ≥ 3 then [⟨0, none, false⟩] else [])) =
        1 := by
      split <;> simp [directionalTap, wheelNotch, List.count_cons]
    have h2 : List.count ⟨0, some (.sendKey c true), false⟩
        (if n % 2 = 1 then directionalTap c else []) = (if n % 2 = 1 then 1 else 0) := by
      split <;> simp [directionalTap, List.count_cons]
    rw [h1, h2, Nat.mul_one]
  have hnotch : List.count (wheelNotch wh) (directionalTasks c wh n) = n / 2 := by
    unfold directionalTasks
    rw [List.count_append, count_flatten_replicate]
    have h1 : List.count (wheelNotch wh)
        (directionalTap c ++ [wheelNotch wh] ++ (if n ≥ 3 then [⟨0, none, false⟩] else [])) =
        1 := by
      split <;> simp [directionalTap, wheelNotch, List.count_cons]
    have h2 : List.count (wheelNotch wh) (if n % 2 = 1 then directionalTap c else []) = 0 := by
      split <;> simp [directionalTap, wheelNotch, List.count_cons]
    rw [h1, h2, Nat.mul_one, Nat.add_zero]
  refine ⟨?_, rfl, hpress, hnotch, ?_⟩
  · rw [queueInputs_cons, hstep]
    dsimp only
    rw [directionalInputs_tasks]
    rfl
  · rw [hpress, hnotch]
    split <;> omega

/-- C17 at the token `up 5` on the sample host. -/
theorem directional_taps_plus_notches_witness :
    ("up".toList = "up".toList ∨ "up".toList = "down".toList) ∧
      findKey sampleHost "up".toList = some VK_UP ∧
      findKey sampleHost ("wheel".toList ++ "up".toList) = some 0x1001 ∧ 5 ≠ 1 ∧ 5 ≤ INT_MAX ∧
      (queueInputs sampleHost ["up".toList ++ ' ' :: Nat.toDigits 10 5] none emptyWorld =
          .ok (enqueue emptyWorld (directionalTasks VK_UP 0x1001 5)) ∧
        directionalTasks VK_UP 0x1001 5 =
          (List.replicate (5 / 2)
              (directionalTap VK_UP ++ [wheelNotch 0x1001] ++
                (if 5 ≥ 3 then [⟨0, none, false⟩] else []))).flatten ++
            (if 5 % 2 = 1 then directionalTap VK_UP else []) ∧
        List.count ⟨0, some (.sendKey VK_UP true), false⟩ (directionalTasks VK_UP 0x1001 5) =
          5 / 2 + (if 5 % 2 = 1 then 1 else 0) ∧
        List.count (wheelNotch 0x1001) (directionalTasks VK_UP 0x1001 5) = 5 / 2 ∧
        List.count ⟨0, some (.sendKey VK_UP true), false⟩ (directionalTasks VK_UP 0x1001 5) +
          List.count (wheelNotch 0x1001) (directionalTasks VK_UP 0x1001 5) = 5) :=
  ⟨Or.inl rfl, rfl, rfl, by decide, by decide,
    directional_taps_plus_notches sampleHost "up".toList VK_UP 0x1001 5 emptyWorld (Or.inl rfl)
      rfl rfl (by decide) (by decide)⟩

/-! ## Letter case of key names -/

theorem findKey_of_lower_eq (h : Host) (n n1 : Str)
    (hcase : n.map Char.toLower = n1.map Char.toLower) : findKey h n = findKey h n1 := by
  unfold findKey
  rw [hcase]

theorem ne_of_lower_not_special (n special : Str)
    (hlow : special.map Char.toLower = special) (hne : n.map Char.toLower ≠ special) :
    n ≠ special := by
  rintro rfl
  exact hne hlow

/-- C15 as stated fails. `sleep 3` queues three pure delays, `Sleep 3` three
taps of the key S; `up 4` takes the directional fast path, `Up 4` queues four
plain taps; `enter` taps Enter, while `ENTER` is read as the key name `ENTE`
with the chain mark `R` and taps the key E. -/
theorem case_of_key_name_changes_entries :
    queueInputs sampleHost ["sleep 3".toList] none emptyWorld =
        .ok { emptyWorld with queuedTasks := List.replicate 3 ⟨0, none, false⟩ } ∧
      queueInputs sampleHost ["Sleep 3".toList] none emptyWorld =
        .ok { emptyWorld with queuedTasks := taps 0x53 3 } ∧
      queueInputs sampleHost ["up 4".toList] none emptyWorld =
        .ok { emptyWorld with queuedTasks := directionalTasks VK_UP 0x1001 4 } ∧
      queueInputs sampleHost ["Up 4".toList] none emptyWorld =
        .ok { emptyWorld with queuedTasks := taps VK_UP 4 } ∧
      queueInputs sampleHost ["enter".toList] none emptyWorld =
        .ok { emptyWorld with queuedTasks :=
                [⟨0, some (.sendKey 0x0D true), false⟩, ⟨0, some (.sendKey 0x0D false), false⟩] } ∧
      queueInputs sampleHost ["ENTER".toList] none emptyWorld =
        .ok { emptyWorld with queuedTasks :=
                [⟨0, some (.sendKey 0x45 true), false⟩, ⟨0, some (.sendKey 0x45 false), true⟩] } := by
  exact ⟨rfl, rfl, rfl, rfl, rfl, rfl⟩

/-- C15, amended: let two tokens match the grammar with the same second part
and the same chain mark, and with key names that are equal after lower-casing
and, lower-cased, none of `sleep`, `wheelup`, `wheeldown`, `up`, `down`. Then
`queueInputs` does the same on both: it leaves the same world, queue included,
or ends the same way. -/
theorem queueInputs_case_insensitive_key_name (h : Host) (t t1 n n1 : Str) (second : Option Str)
    (r : Bool) (callback : Option Action) (w : World)
    (hm : regex_match t = some ⟨n, second, r⟩) (hm1 : regex_match t1 = some ⟨n1, second, r⟩)
    (hcase : n.map Char.toLower = n1.map Char.toLower)
    (hspecial : n.map Char.toLower ∉ ["sleep".toList, "wheelup".toList, "wheeldown".toList,
      "up".toList, "down".toList]) :
    queueInputsStep h t w = queueInputsStep h t1 w ∧
      queueInputs h [t] callback w = queueInputs h [t1] callback w := by
  simp only [List.mem_cons, List.mem_singleton, List.not_mem_nil, or_false, not_or] at hspecial
  obtain ⟨g1, g2, g3, g4, g5⟩ := hspecial
  have k1 := g1
  have k2 := g2
  have k3 := g3
  have k4 := g4
  have k5 := g5
  rw [hcase] at k1 k2 k3 k4 k5
  have hs : n ≠ "sleep".toList := ne_of_lower_not_special n _ (by decide) g1
  have hwu : n ≠ "wheelup".toList := ne_of_lower_not_special n _ (by decide) g2
  have hwd : n ≠ "wheeldown".toList := ne_of_lower_not_special n _ (by decide) g3
  have hu : n ≠ "up".toList := ne_of_lower_not_special n _ (by decide) g4
  have hd : n ≠ "down".toList := ne_of_lower_not_special n _ (by decide) g5
  have hs1 : n1 ≠ "sleep".toList := ne_of_lower_not_special n1 _ (by decide) k1
  have hwu1 : n1 ≠ "wheelup".toList := ne_of_lower_not_special n1 _ (by decide) k2
  have hwd1 : n1 ≠ "wheeldown".toList := ne_of_lower_not_special n1 _ (by decide) k3
  have hu1 : n1 ≠ "up".toList := ne_of_lower_not_special n1 _ (by decide) k4
  have hd1 : n1 ≠ "down".toList := ne_of_lower_not_special n1 _ (by decide) k5
  have hw : ¬ (n = "wheelup".toList ∨ n = "wheeldown".toList) := by
    rintro (hc | hc)
    · exact hwu hc
    · exact hwd hc
  have hw1 : ¬ (n1 = "wheelup".toList ∨ n1 = "wheeldown".toList) := by
    rintro (hc | hc)
    · exact hwu1 hc
    · exact hwd1 hc
  have hstep : queueInputsStep h t w = queueInputsStep h t1 w := by
    unfold queueInputsStep
    rw [hm, hm1]
    dsimp only
    cases parseSecondArg second with
    | error e => rfl
    | ok p =>
      obtain ⟨state, amount⟩ := p
      dsimp only
      rw [if_neg hs, if_neg hs1, findKey_of_lower_eq h n n1 hcase]
      cases findKey h n1 with
      | none => rfl
      | some vkCode =>
        dsimp only
        have hdir : ¬ ((n = "up".toList ∨ n = "down".toList) ∧ amount ≠ 1 ∧ state = none) := by
          rintro ⟨hc | hc, -⟩
          · exact hu hc
          · exact hd hc
        have hdir1 : ¬ ((n1 = "up".toList ∨ n1 = "down".toList) ∧ amount ≠ 1 ∧
            state = none) := by
          rintro ⟨hc | hc, -⟩
          · exact hu1 hc
          · exact hd1 hc
        rw [if_neg hw, if_neg hw1, if_neg hdir, if_neg hdir1]
  refine ⟨hstep, ?_⟩
  rw [queueInputs_cons, queueInputs_cons, hstep]

/-- C15, amended, at the tokens `enter 2` and `Enter 2` on the sample host. -/
theorem queueInputs_case_insensitive_key_name_witness :
    regex_match "enter 2".toList = some ⟨"enter".toList, some "2".toList, false⟩ ∧
      regex_match "Enter 2".toList = some ⟨"Enter".toList, some "2".toList, false⟩ ∧
      "enter".toList.map Char.toLower = "Enter".toList.map Char.toLower ∧
      (queueInputsStep sampleHost "enter 2".toList emptyWorld =
          queueInputsStep sampleHost "Enter 2".toList emptyWorld ∧
        queueInputs sampleHost ["enter 2".toList] none emptyWorld =
          queueInputs sampleHost ["Enter 2".toList] none emptyWorld) :=
  ⟨rfl, rfl, by decide,
    queueInputs_case_insensitive_key_name sampleHost "enter 2".toList "Enter 2".toList
      "enter".toList "Enter".toList (some "2".toList) false none emptyWorld rfl rfl (by decide)
      (by decide)⟩

/-! ## Modifier checks and the key-up dispatch -/

theorem getPhysicalKeyState_iff (h : Host) (w : World) (vkCode : Nat) :
    getPhysicalKeyState h w vkCode = true ↔ Held h w vkCode := by
  unfold getPhysicalKeyState Held
  cases hf : w.keybinds.find? (fun keybind => decide (vkCode = keybind.keyCode)) with
  | none =>
    have hnone := List.find?_eq_none.mp hf
    have hall : ∀ B ∈ w.keybinds, B.keyCode ≠ vkCode := by
      intro B hB hc
      exact hnone B hB (by simp [hc])
    dsimp only
    constructor
    · intro hos
      exact Or.inr ⟨hall, by simpa [osDown] using hos⟩
    · rintro (⟨pre, B, post, hl, -, hk, -⟩ | ⟨-, hos⟩)
      · exact absurd hk (hall B (by rw [hl]; simp))
      · simpa [osDown] using hos
  | some kb =>
    obtain ⟨hp, pre, post, hl, hpre⟩ := List.find?_eq_some.mp hf
    have hk : kb.keyCode = vkCode := by
      have := of_decide_eq_true hp
      exact this.symm
    have hpre1 : ∀ B1 ∈ pre, B1.keyCode ≠ vkCode := by
      intro B1 hB1 hc
      have := hpre B1 hB1
      simp [hc] at this
    dsimp only
    constructor
    · intro hheld
      exact Or.inl ⟨pre, kb, post, hl, hpre1, hk, hheld⟩
    · rintro (⟨pre2, B, post2, hl2, hpre2, hk2, hheld⟩ | ⟨hall, -⟩)
      · have hfind : w.keybinds.find? (fun keybind => decide (vkCode = keybind.keyCode)) =
            some B := by
          rw [List.find?_eq_some]
          refine ⟨by simp [hk2], pre2, post2, hl2, ?_⟩
          intro a ha
          have := hpre2 a ha
          simp only [Bool.not_eq_eq_eq_not, Bool.not_true, decide_eq_false_iff_not]
          exact fun hc => this hc.symm
        rw [hf] at hfind
        rw [Option.some.inj hfind]
        exact hheld
      · exact absurd hk (hall kb (by rw [hl]; simp))

theorem modifiersAll_iff (h : Host) (w : World) (ms : List Str)
    (hres : ∀ m ∈ ms, ∃ k, findKey h m = some k) :
    ∃ b, modifiersAll h w ms = .ok b ∧
      (b = true ↔ ∀ m ∈ ms, ∀ k, findKey h m = some k → Held h w k) := by
  induction ms with
  | nil => exact ⟨true, rfl, by simp⟩
  | cons m rest ih =>
    obtain ⟨k, hk⟩ := hres m (List.mem_cons_self _ _)
    obtain ⟨b, hb, hiff⟩ := ih (fun x hx => hres x (List.mem_cons_of_mem _ hx))
    unfold modifiersAll
    rw [hk]
    dsimp only
    cases hg : getPhysicalKeyState h w k with
    | true =>
      have hheld : Held h w k := (getPhysicalKeyState_iff h w k).mp hg
      refine ⟨b, by simpa using hb, ?_⟩
      rw [hiff]
      constructor
      · intro hall x hx k1 hk1
        rcases List.mem_cons.mp hx with rfl | hin
        · rw [hk] at hk1
          rw [← Option.some.inj hk1]
          exact hheld
        · exact hall x hin k1 hk1
      · intro hall x hx k1 hk1
        exact hall x (List.mem_cons_of_mem _ hx) k1 hk1
    | false =>
      refine ⟨false, by simp, ?_⟩
      constructor
      · intro hc
        exact absurd hc (by decide)
      · intro hall
        have := (getPhysicalKeyState_iff h w k).mpr (hall m (List.mem_cons_self _ _) k hk)
        rw [hg] at this
        exact this

/-- C16 as stated fails. On a host where the OS reports Shift as down, an idle
binding registered for the Shift key makes the modifier `shift` count as not
held, and the key-down for a binding that requires it is passed to the host.
Where the OS reports Control as up, a held binding registered for the Control
key makes the modifier `ctrl` count as held, and the binding that requires it
fires. -/
theorem modifier_check_reads_binding_flag :
    osDown shiftDownHost 0x10 ∧ findKey shiftDownHost "shift".toList = some 0x10 ∧
      modifiersPressed shiftDownHost shiftBoundSys.w
        ⟨65, false, .trigger (.user 2), ["shift".toList]⟩ = .ok false ∧
      WndProcHook shiftDownHost WM_KEYDOWN 65 shiftBoundSys =
        .ok (shiftBoundSys, .callOriginal) ∧
      ¬ osDown shiftDownHost 0x11 ∧ findKey shiftDownHost "ctrl".toList = some 0x11 ∧
      modifiersPressed shiftDownHost ctrlBoundSys.w
        ⟨65, false, .trigger (.user 2), ["ctrl".toList]⟩ = .ok true ∧
      WndProcHook shiftDownHost WM_KEYDOWN 65 ctrlBoundSys =
        .ok ({ w := { queuedTasks := [⟨0, some (.user 2), false⟩],
                      keybinds := [⟨0x11, true, .trigger (.user 1), []⟩,
                                   ⟨65, true, .trigger (.user 2), ["ctrl".toList]⟩],
                      inChat := false, sent := [] },
               trace := [.keybind 1] }, .zero) := by
  refine ⟨?_, rfl, rfl, rfl, ?_, rfl, rfl, rfl⟩
  · unfold osDown
    decide
  · unfold osDown
    decide

/-- C16, amended: when every modifier name of a binding resolves, the modifier
check of the key-down dispatch completes, and it succeeds exactly when every
modifier counts as held in this sense: if bindings are registered for the code
of the modifier, the first of them has `isPressed` set; if none is, the OS
key-state query reports the code as down. -/
theorem modifier_held_by_binding_flag_or_os (h : Host) (w : World) (keybind : Keybind)
    (hres : ∀ m ∈ keybind.modifiers, ∃ k, findKey h m = some k) :
    ∃ b, modifiersPressed h w keybind = .ok b ∧
      (b = true ↔ ∀ m ∈ keybind.modifiers, ∀ k, findKey h m = some k →
        ((∃ pre B post, w.keybinds = pre ++ B :: post ∧ (∀ B1 ∈ pre, B1.keyCode ≠ k) ∧
            B.keyCode = k ∧ B.isPressed = true) ∨
          ((∀ B ∈ w.keybinds, B.keyCode ≠ k) ∧ osDown h k))) := by
  unfold modifiersPressed
  cases hm : keybind.modifiers with
  | nil => exact ⟨true, rfl, by simp⟩
  | cons m rest =>
    rw [hm] at hres
    obtain ⟨b, hb, hiff⟩ := modifiersAll_iff h w (m :: rest) hres
    exact ⟨b, by simpa using hb, hiff⟩

/-- C16, amended, on the bindings of `shiftBoundSys`. -/
theorem modifier_held_by_binding_flag_or_os_witness :
    (∀ m ∈ (⟨65, false, .trigger (.user 2), ["shift".toList]⟩ : Keybind).modifiers,
        ∃ k, findKey shiftDownHost m = some k) ∧
      ∃ b, modifiersPressed shiftDownHost shiftBoundSys.w
          ⟨65, false, .trigger (.user 2), ["shift".toList]⟩ = .ok b ∧
        (b = true ↔ ∀ m ∈ (⟨65, false, .trigger (.user 2), ["shift".toList]⟩ : Keybind).modifiers,
          ∀ k, findKey shiftDownHost m = some k →
            ((∃ pre B post, shiftBoundSys.w.keybinds = pre ++ B :: post ∧
                (∀ B1 ∈ pre, B1.keyCode ≠ k) ∧ B.keyCode = k ∧ B.isPressed = true) ∨
              ((∀ B ∈ shiftBoundSys.w.keybinds, B.keyCode ≠ k) ∧ osDown shiftDownHost k))) :=
  have hres : ∀ m ∈ (⟨65, false, .trigger (.user 2), ["shift".toList]⟩ : Keybind).modifiers,
      ∃ k, findKey shiftDownHost m = some k := by
    intro m hm
    have : m = "shift".toList := by simpa using hm
    exact ⟨0x10, by rw [this]; rfl⟩
  ⟨hres, modifier_held_by_binding_flag_or_os shiftDownHost shiftBoundSys.w _ hres⟩

/-- C12: the code misses the claim for bindings that share a key code. With two
bindings for the code 65, one requiring `ctrl` and one requiring `shift`, and
Shift down, a key-down for 65 fires the second binding and marks it held. The
key-up for 65 returns 0 at the first binding with that code and leaves the
second one held, so the next key-down for 65 fires nothing and goes to the
host. -/
theorem keyUp_leaves_later_binding_held :
    WndProcHook shiftDownHost WM_KEYDOWN 65 sameKeySys = .ok (sameKeyHeldSys, .zero) ∧
      WndProcHook shiftDownHost WM_KEYUP 65 sameKeyHeldSys = .ok (sameKeyHeldSys, .zero) ∧
      sameKeyHeldSys.w.keybinds[1]? = some ⟨65, true, .trigger (.user 2), ["shift".toList]⟩ ∧
      WndProcHook shiftDownHost WM_KEYDOWN 65 sameKeyHeldSys =
        .ok (sameKeyHeldSys, .callOriginal) := by
  exact ⟨rfl, rfl, rfl, rfl⟩

/-! ## The key-down dispatch as a whole -/

theorem keybinds_split (l : List Keybind) (i : Nat) (B : Keybind) (hB : l[i]? = some B) :
    l = l.take i ++ B :: l.drop (i + 1) ∧ (l.take i).length = i ∧ i < l.length := by
  have hi : i < l.length := by
    rcases Nat.lt_or_ge i l.length with hlt | hge
    · exact hlt
    · rw [List.getElem?_eq_none hge] at hB
      exact absurd hB (by simp)
  have hBget : l[i] = B := by
    rw [List.getElem?_eq_getElem hi] at hB
    exact Option.some.inj hB
  refine ⟨?_, ?_, hi⟩
  · rw [← hBget, List.getElem_cons_drop _ _ hi, List.take_append_drop]
  · rw [List.length_take]
    omega

/-- C11 as stated fails when a modifier name does not resolve: the lookup of
the first binding throws before any code is compared, so a key-down for 65
neither fires the idle binding for 65 nor reaches the host. -/
theorem keyDown_throws_on_unresolved_modifier :
    findKey sampleHost "?".toList = none ∧
      WndProcHook sampleHost WM_KEYDOWN 65 unresolvedModifierSys =
        .error .bad_optional_access := by
  exact ⟨rfl, rfl⟩

/-- C11, amended with the proviso that the modifier checks of the bindings the
scan looks at complete. Let the event be a key-down with code `c`. If `B`, at
position `i`, fires (its code is `c`, it is idle, its modifiers are all held)
and the scan passes over every binding registered before it, then
`WndProcHook` returns 0 after it has set `isPressed` of `B` and of no other
binding, and it has called the function of `B` exactly when `inChat` is false.
If the scan passes over every binding, the system is unchanged and the event
goes to the original window procedure. -/
theorem keyDown_fires_first_eligible_binding (h : Host) (s : Sys) (uMsg wParam : Nat)
    (hmsg : uMsg = WM_KEYDOWN ∨ uMsg = WM_SYSKEYDOWN) :
    (∀ (i : Nat) (B : Keybind), s.w.keybinds[i]? = some B →
        (∀ kb ∈ s.w.keybinds.take i, passedOver h s.w (wParam % 2 ^ 32) kb) →
        fires h s.w (wParam % 2 ^ 32) B →
        WndProcHook h uMsg wParam s =
            .ok (if s.w.inChat = false then
                  { w := B.function.run h
                      { s.w with keybinds := s.w.keybinds.set i { B with isPressed := true } },
                    trace := s.trace ++ [.keybind i] }
                else
                  { w := { s.w with
                      keybinds := s.w.keybinds.set i { B with isPressed := true } },
                    trace := s.trace }, .zero) ∧
          (s.w.keybinds.set i { B with isPressed := true })[i]? =
            some { B with isPressed := true } ∧
          ∀ j, j ≠ i → (s.w.keybinds.set i { B with isPressed := true })[j]? =
            s.w.keybinds[j]?) ∧
      ((∀ kb ∈ s.w.keybinds, passedOver h s.w (wParam % 2 ^ 32) kb) →
        WndProcHook h uMsg wParam s = .ok (s, .callOriginal)) := by
  constructor
  · intro i B hB hbefore hfire
    obtain ⟨hsplit, hlen, hi⟩ := keybinds_split s.w.keybinds i B hB
    obtain ⟨hcode, hidle, hmp⟩ := hfire
    refine ⟨?_, ?_, ?_⟩
    · have hloop : keyDownLoop h s (wParam % 2 ^ 32) 0 s.w.keybinds =
          keyDownLoop h s (wParam % 2 ^ 32) i (B :: s.w.keybinds.drop (i + 1)) := by
        conv_lhs => rw [hsplit]
        rw [keyDownLoop_skip h s _ _ _ 0 hbefore, hlen, Nat.zero_add]
      unfold WndProcHook
      rw [if_pos hmsg, hloop, keyDownLoop_cons, hmp]
      dsimp only
      rw [if_pos ⟨hcode, hidle, rfl⟩]
      by_cases hchat : s.w.inChat = false
      · rw [if_pos hchat, if_pos hchat]
      · rw [if_neg hchat, if_neg hchat]
    · rw [List.getElem?_set_self hi]
    · intro j hj
      rw [List.getElem?_set_ne (Ne.symm hj)]
  · intro hall
    have hloop : keyDownLoop h s (wParam % 2 ^ 32) 0 s.w.keybinds = .ok none := by
      have := keyDownLoop_skip h s (wParam % 2 ^ 32) s.w.keybinds [] 0 hall
      rw [List.append_nil] at this
      rw [this]
      rfl
    unfold WndProcHook
    rw [if_pos hmsg, hloop]

/-- C11, amended, on the system `sameKeySys` with Shift down: the second
binding fires. -/
theorem keyDown_fires_first_eligible_binding_witness :
    (WM_KEYDOWN = WM_KEYDOWN ∨ WM_KEYDOWN = WM_SYSKEYDOWN) ∧
      sameKeySys.w.keybinds[1]? = some ⟨65, false, .trigger (.user 2), ["shift".toList]⟩ ∧
      fires shiftDownHost sameKeySys.w (65 % 2 ^ 32)
        ⟨65, false, .trigger (.user 2), ["shift".toList]⟩ ∧
      WndProcHook shiftDownHost WM_KEYDOWN 65 sameKeySys = .ok (sameKeyHeldSys, .zero) :=
  ⟨Or.inl rfl, rfl, ⟨rfl, rfl, rfl⟩,
    ((keyDown_fires_first_eligible_binding shiftDownHost sameKeySys WM_KEYDOWN 65
      (Or.inl rfl)).1 1 ⟨65, false, .trigger (.user 2), ["shift".toList]⟩ rfl
      (by
        intro kb hkb
        have hk : kb = ⟨65, false, .trigger (.user 1), ["ctrl".toList]⟩ := by
          simpa [sameKeySys] using hkb
        subst hk
        exact ⟨false, rfl, by decide⟩)
      ⟨rfl, rfl, rfl⟩).1⟩

end InputHandler
